import Mathlib

/-!
Verification of the flat-list-to-tree materialization algorithm of
`blog/views.py` (`list_to_tree` / `find_parent`) and of the date-bucketed
tree-hole listing (`TreeHoleViewSet.list_treeholes_all`).

Shallow embedding notes.

A flat record (one element of the Python `list` argument, a dict produced by
`TreeHole.objects.all().values()` or the comment queryset) is modelled by
`Item`: it always carries an `id` and a `parent_id` key (`parent_id` is
`None`/`null` for roots, hence `Option Nat`), and a creation timestamp of
which the algorithms only ever use the year-month rendering
`strftime('%Y-%m')`; that year-month is modelled as a single `Nat` `ym`
(e.g. 202105 for "2021-05"; any order-preserving encoding works since only
equality and comparison of labels are used).  Other payload fields
(`content`, ...) are never consulted by the algorithms and are omitted.

The nested output is a forest of dicts.  A dict acquires a `'children'` key
only at the moment the first child is appended to it
(`if 'children' not in parent_node.keys(): parent_node['children'] = []`),
so a faithful model must distinguish "no `children` key" from
"`children` present".  `Forest` is a single inductive that inlines the list
structure of a sibling sequence: `consN i p y rest` is a node *without* a
`children` key followed by its right siblings, `consC i p y cs rest` is a
node *with* a `children` key holding the forest `cs`.
-/

structure Item where
  id : Nat
  parent_id : Option Nat
  ym : Nat
deriving DecidableEq

/-- Python truthiness test `not item["parent_id"]` used by the partition
pass of `list_to_tree`: both `None` and `0` are falsy. -/
def falsyPid : Option Nat → Bool
  | none => true
  | some n => n == 0

inductive Forest where
  | nil : Forest
  | consN (id : Nat) (parent_id : Option Nat) (ym : Nat) (rest : Forest) : Forest
  | consC (id : Nat) (parent_id : Option Nat) (ym : Nat)
      (children : Forest) (rest : Forest) : Forest
deriving DecidableEq

namespace Forest

/-- `list.append(item)` on a Python list of dicts: append a fresh node
(the dict `r` itself, which has no `'children'` key) at the end of the
sibling sequence.  Used both for `tree.append(item)` in the partition pass
and for `parent_node['children'].append(item)`. -/
def appendNode : Forest → Item → Forest
  | .nil, r => .consN r.id r.parent_id r.ym .nil
  | .consN i p y rest, r => .consN i p y (appendNode rest r)
  | .consC i p y cs rest, r => .consC i p y cs (appendNode rest r)

/-- Forest concatenation (concatenation of sibling sequences). -/
def app : Forest → Forest → Forest
  | .nil, g => g
  | .consN i p y rest, g => .consN i p y (app rest g)
  | .consC i p y cs rest, g => .consC i p y cs (app rest g)

/-- The records (id, parent_id, ym triples) of all nodes of the forest,
in depth-first preorder: this is the "flattened back to flat" form of the
forest, recursively through every `children` field. -/
def flattenRecs : Forest → List Item
  | .nil => []
  | .consN i p y rest => ⟨i, p, y⟩ :: flattenRecs rest
  | .consC i p y cs rest => ⟨i, p, y⟩ :: (flattenRecs cs ++ flattenRecs rest)

/-- The ids of all nodes of the forest, in depth-first preorder. -/
def idsF : Forest → List Nat
  | .nil => []
  | .consN i _ _ rest => i :: idsF rest
  | .consC i _ _ cs rest => i :: (idsF cs ++ idsF rest)

/-- Records of the top-level (root) nodes only, in order. -/
def topRecs : Forest → List Item
  | .nil => []
  | .consN i p y rest => ⟨i, p, y⟩ :: topRecs rest
  | .consC i p y _ rest => ⟨i, p, y⟩ :: topRecs rest

/-- Records of all nodes that are NOT top-level (strict descendants),
in depth-first preorder. -/
def descRecs : Forest → List Item
  | .nil => []
  | .consN _ _ _ rest => descRecs rest
  | .consC _ _ _ cs rest => flattenRecs cs ++ descRecs rest

/-- All parent/child edges of the forest: for every node with a
`children` key, one pair `(parent id, child record)` per element of its
children sequence, plus the edges inside the children recursively. -/
def childEdges : Forest → List (Nat × Item)
  | .nil => []
  | .consN _ _ _ rest => childEdges rest
  | .consC i _ _ cs rest =>
      (topRecs cs).map (fun c => (i, c)) ++ (childEdges cs ++ childEdges rest)

/-- For each top-level node: its id paired with the ids of the top-level
elements of its children sequence (empty if it has no `children` key).
An observation that is stable under any reasonable notion of forest
equivalence: it records which roots have which direct children. -/
def topFamilies : Forest → List (Nat × List Nat)
  | .nil => []
  | .consN i _ _ rest => (i, []) :: topFamilies rest
  | .consC i _ _ cs rest => (i, idsF cs) :: topFamilies rest

end Forest

/-- Depth-first search of `find_parent(tree, item)` fused with the
subsequent in-place mutation of its caller in `list_to_tree`
(`parent_node['children'] = []` if absent, then
`parent_node['children'].append(item)`).  `find_parent` walks the sibling
sequence; at each node it first compares the node's `id` with
`item['parent_id']` (returning that node on a match), **el**if the node has a
`'children'` key it searches it recursively, and it moves to the next
sibling only if nothing was found.  Returns `none` when `find_parent`
returns `None`, otherwise `some` of the forest with `item` appended to the
children of the first node found in that DFS order (the `'children'` key
being created at that moment if absent). -/
def find_parent_insert : Forest → Item → Option Forest
  | .nil, _ => none
  | .consN i p y rest, r =>
      if r.parent_id = some i then
        some (.consC i p y (.consN r.id r.parent_id r.ym .nil) rest)
      else
        match find_parent_insert rest r with
        | some rest' => some (.consN i p y rest')
        | none => none
  | .consC i p y cs rest, r =>
      if r.parent_id = some i then
        some (.consC i p y (cs.appendNode r) rest)
      else
        match find_parent_insert cs r with
        | some cs' => some (.consC i p y cs' rest)
        | none =>
            match find_parent_insert rest r with
            | some rest' => some (.consC i p y cs rest')
            | none => none

/-- `list.remove(x)` on a Python list: remove the first element equal
(structurally, as dicts compare by value) to `x`; the Python call never
raises here because it is only invoked on members. -/
def removeFirst : List Item → Item → List Item
  | [], _ => []
  | x :: xs, r => if x = r then xs else x :: removeFirst xs r

/-- The partition pass of `list_to_tree`
(`for item in list[:]: if not item["parent_id"]: tree.append(item);
list.remove(item)`): `snapshot` is the copy `list[:]` being iterated,
`tree` the forest built so far, `cur` the current state of the mutated
`list`. -/
def roots_pass : List Item → Forest → List Item → Forest × List Item
  | [], tree, cur => (tree, cur)
  | r :: rs, tree, cur =>
      if falsyPid r.parent_id then
        roots_pass rs (tree.appendNode r) (removeFirst cur r)
      else
        roots_pass rs tree cur

/-- One iteration of the body of `while len(list) > 0`
(`for item in list[:]` with `find_parent`, append, `list.remove(item)`):
as above, `snapshot` is the copy taken at the start of the pass and `cur`
the actual mutated list. -/
def attach_pass : List Item → Forest → List Item → Forest × List Item
  | [], tree, cur => (tree, cur)
  | r :: rs, tree, cur =>
      match find_parent_insert tree r with
      | none => attach_pass rs tree cur
      | some tree' => attach_pass rs tree' (removeFirst cur r)

/-- The `while len(list) > 0` loop of `list_to_tree`, with an explicit
fuel bound on the number of passes.  The Python loop's state after a pass
is deterministic, and a pass that removes nothing leaves the state
unchanged (`attach_pass_progress_or_fixed` below), so the Python loop
either empties `list` within `list.length` passes or repeats a fixed
point forever; `list_to_tree` below runs the loop with exactly that much
fuel, so `none` here means the Python loop never terminates.  On exit the
result carries both the forest `tree` and the final state of the caller's
`list` argument (always `[]`, since the loop only exits when empty). -/
def attach_loop : Nat → Forest → List Item → Option (Forest × List Item)
  | fuel, tree, cur =>
      if cur = [] then some (tree, cur)
      else
        match fuel with
        | 0 => none
        | fuel' + 1 =>
            match attach_pass cur tree cur with
            | (tree', cur') => attach_loop fuel' tree' cur'

/-- `list_to_tree(list)` of `blog/views.py`, together with the final state
of the (mutated) input list: partition pass, then the while loop.
`none` models non-termination of the Python function. -/
def list_to_tree_run (l : List Item) : Option (Forest × List Item) :=
  match roots_pass l .nil l with
  | (tree, rest) => attach_loop rest.length tree rest

/-- The return value of `list_to_tree(list)`: the materialized forest. -/
def list_to_tree (l : List Item) : Option Forest :=
  (list_to_tree_run l).map Prod.fst

/-- The state of the caller's `list` argument when `list_to_tree`
returns (the function mutates it via `list.remove`). -/
def input_list_after (l : List Item) : Option (List Item) :=
  (list_to_tree_run l).map Prod.snd

/-- The forest consisting of the given records in order, as root nodes
without a `children` key: the result of the partition pass on its own. -/
def rootsForest : List Item → Forest
  | [] => .nil
  | r :: rs => .consN r.id r.parent_id r.ym (rootsForest rs)

/-- Folding `tree.append(item)` over a list of records. -/
def appendRecs (t : Forest) (rs : List Item) : Forest :=
  rs.foldl Forest.appendNode t

/-! ### Structural invariants of materialized forests -/

/-- Every parent/child edge relates a child whose `parent_id` is exactly the
id of the node whose `children` sequence it sits in. -/
def EdgesOk (t : Forest) : Prop :=
  ∀ e ∈ t.childEdges, e.2.parent_id = some e.1

/-- Every child anywhere in the forest has a truthy (non-null, nonzero)
`parent_id`. -/
def EdgesTruthy (t : Forest) : Prop :=
  ∀ e ∈ t.childEdges, falsyPid e.2.parent_id = false

/-- Every `children` key present in the forest holds a nonempty sequence
(`list_to_tree` creates the key only when appending a first child). -/
def NonemptyCh : Forest → Prop
  | .nil => True
  | .consN _ _ _ rest => NonemptyCh rest
  | .consC _ _ _ cs rest => cs ≠ .nil ∧ NonemptyCh cs ∧ NonemptyCh rest

/-- The parent graph of a flat input is fully resolvable: every non-null
`parent_id` is the id of some record of the list. -/
def Resolvable (l : List Item) : Prop :=
  ∀ r ∈ l, ∀ p, r.parent_id = some p → ∃ q ∈ l, q.id = p

/-- Acyclicity of the parent graph on ids, witnessed by a rank function
that strictly decreases from child to parent: on a finite graph this is
equivalent to the absence of cycles along `parent_id` edges. -/
def AcyclicDepth (l : List Item) (depth : Nat → Nat) : Prop :=
  ∀ r ∈ l, ∀ p, r.parent_id = some p → depth p < depth r.id

/-- The property asserted by the spec for non-root nodes, as stated:
every record in the output forest whose `parent_id` is non-null sits in the
`children` sequence of a node whose id equals that `parent_id`. -/
def NestedUnderParentProp (l : List Item) : Prop :=
  ∀ t, list_to_tree l = some t →
    ∀ r ∈ t.flattenRecs, ∀ p, r.parent_id = some p → (p, r) ∈ t.childEdges

/-! ### Date-bucketed tree-hole listing (`TreeHoleViewSet.list_treeholes_all`) -/

/-- One element appended to a bucket by `list_treeholes_all`: the dict
`{'id':…, 'content':…, 'parent':…, 'created_time':…, 'children': obj.get('children')}`
built from a top-level node `obj` of the materialized forest (`content`
carries no logic and is omitted, `created_time` is represented by its
year-month as everywhere in this file).  `children` is `obj.get('children')`:
`none` when the node has no `children` key. -/
structure Entry where
  id : Nat
  parent : Option Nat
  ym : Nat
  children : Option Forest
deriving DecidableEq

/-- The entries built from the top-level nodes of the forest, in order
(the `for obj in treeholes_formated_list` iteration). -/
def Forest.topEntries : Forest → List Entry
  | .nil => []
  | .consN i p y rest => ⟨i, p, y, none⟩ :: topEntries rest
  | .consC i p y cs rest => ⟨i, p, y, some cs⟩ :: topEntries rest

/-- Insert into a descending-sorted list of labels. -/
def insertDesc (d : Nat) : List Nat → List Nat
  | [] => [d]
  | x :: xs => if x ≤ d then d :: x :: xs else x :: insertDesc d xs

/-- Sort labels in descending order. -/
def sortDesc (l : List Nat) : List Nat := l.foldr insertDesc []

/-- `TreeHole.objects.dates("created_time", "month", order="DESC")` followed
by `to_representation(date)[:7]`: the distinct year-months of the records,
most recent first. -/
def monthsDesc (l : List Item) : List Nat := sortDesc (l.map Item.ym).dedup

/-- The inner `for i in range(len(date_list)): if date_list[i] == time_str:
result[i][date_list[i]].append(...)` loop for one entry: append the entry
to every bucket whose label equals its year-month (the labels are distinct,
so at most one). -/
def addToBuckets (bs : List (Nat × List Entry)) (e : Entry) : List (Nat × List Entry) :=
  bs.map (fun b => if b.1 = e.ym then (b.1, b.2 ++ [e]) else b)

/-- The outer `for obj in treeholes_formated_list` loop. -/
def fillBuckets (bs : List (Nat × List Entry)) (es : List Entry) : List (Nat × List Entry) :=
  es.foldl addToBuckets bs

/-- `TreeHoleViewSet.list_treeholes_all`: materialize the forest, build one
empty bucket per distinct year-month (most recent first), then distribute
the top-level nodes into the bucket matching their creation month.
`none` models non-termination of `list_to_tree`. -/
def list_treeholes_all (l : List Item) : Option (List (Nat × List Entry)) :=
  (list_to_tree l).map (fun t =>
    fillBuckets ((monthsDesc l).map (fun d => (d, ([] : List Entry)))) t.topEntries)

/-! ### Round-trip (idempotence) machinery for the while loop -/

/-- Forest with every `children` key removed everywhere at the top level
and all deeper nodes dropped: the top-level nodes as bare records.  This is
what the partition pass rebuilds from the flattened forest. -/
def Forest.stripT : Forest → Forest
  | .nil => .nil
  | .consN i p y rest => .consN i p y (stripT rest)
  | .consC i p y _ rest => .consN i p y (stripT rest)

/-- Folding `find_parent` + append over a queue of records, failing if any
record finds no parent: the effect of one pass of the while loop in the
case where every record attaches. -/
def foldInsert : Forest → List Item → Option Forest
  | t, [] => some t
  | t, r :: rs =>
      match find_parent_insert t r with
      | some t' => foldInsert t' rs
      | none => none

/-- Local well-formedness of a forest: the top records of every `children`
sequence carry the id of the node holding the key (a recursive rephrasing
of `EdgesOk`). -/
def WFF : Forest → Prop
  | .nil => True
  | .consN _ _ _ rest => WFF rest
  | .consC i _ _ cs rest =>
      (∀ c ∈ cs.topRecs, c.parent_id = some i) ∧ WFF cs ∧ WFF rest

/-- One frame of the context in which a sibling sequence is being rebuilt:
the node of id `id` holds the sequence in its `children` key, `before` are
the finished siblings to its left and `after` the forest to its right. -/
structure Frame where
  id : Nat
  parent_id : Option Nat
  ym : Nat
  before : Forest
  after : Forest

/-- Plug a children forest into a stack of frames (innermost first). -/
def plug : List Frame → Forest → Forest
  | [], d => d
  | f :: fs, d => plug fs (f.before.app (.consC f.id f.parent_id f.ym d f.after))

/-- The id `q` is found nowhere on the way to the hole of the stack: not in
any `before` part and not equal to any frame's node id. -/
def StackOk (fs : List Frame) (q : Nat) : Prop :=
  ∀ f ∈ fs, q ∉ f.before.idsF ∧ q ≠ f.id

/-- The node currently being rebuilt: `od = none` when it has no
`children` key yet, `some d` once the key holds `d`. -/
def nodeState (i : Nat) (p : Option Nat) (y : Nat)
    (od : Option Forest) (aft : Forest) : Forest :=
  match od with
  | none => .consN i p y aft
  | some d => .consC i p y d aft

/-- The whole forest while the children of node `i` are being rebuilt. -/
def stateO (fs : List Frame) (bef : Forest) (i : Nat) (p : Option Nat) (y : Nat)
    (od : Option Forest) (aft : Forest) : Forest :=
  plug fs (bef.app (nodeState i p y od aft))

/-- The forest held by an optional `children` key. -/
def optF : Option Forest → Forest
  | none => .nil
  | some d => d

/-- Ids reachable under an optional `children` key. -/
def idsO (od : Option Forest) : List Nat := (optF od).idsF

/-- Append a child record (as a node without `children` key), creating the
key if absent: the children value after `parent_node['children'].append`. -/
def pushChild (od : Option Forest) (r : Item) : Forest :=
  match od with
  | none => .consN r.id r.parent_id r.ym .nil
  | some d => d.appendNode r

/-- The optional children value after a whole sibling forest `t` has been
attached behind `od` (still absent when both are empty). -/
def oappend (od : Option Forest) (t : Forest) : Option Forest :=
  match t with
  | .nil => od
  | _ =>
      match od with
      | none => some t
      | some d => some (d.app t)

/-! ### Lemmas about `removeFirst` -/

theorem removeFirst_cons_self (r : Item) (xs : List Item) :
    removeFirst (r :: xs) r = xs := by
  simp [removeFirst]

theorem removeFirst_of_not_mem {l : List Item} {r : Item} (h : r ∉ l) :
    removeFirst l r = l := by
  induction l with
  | nil => rfl
  | cons x xs ih =>
    have hx : ¬x = r := fun hxr => h (hxr ▸ List.mem_cons_self x xs)
    have hr : r ∉ xs := fun hr => h (List.mem_cons_of_mem x hr)
    simp [removeFirst, hx, ih hr]

theorem removeFirst_append_of_not_mem {l₁ : List Item} (l₂ : List Item) {r : Item}
    (h : r ∉ l₁) : removeFirst (l₁ ++ l₂) r = l₁ ++ removeFirst l₂ r := by
  induction l₁ with
  | nil => rfl
  | cons x xs ih =>
    have hx : ¬x = r := fun hxr => h (hxr ▸ List.mem_cons_self x xs)
    have hr : r ∉ xs := fun hr => h (List.mem_cons_of_mem x hr)
    simp [removeFirst, hx, ih hr]

theorem removeFirst_sublist (l : List Item) (r : Item) :
    List.Sublist (removeFirst l r) l := by
  induction l with
  | nil => exact List.Sublist.refl _
  | cons x xs ih =>
    by_cases hx : x = r
    · rw [removeFirst, if_pos hx]
      exact List.sublist_cons_self x xs
    · rw [removeFirst, if_neg hx]
      exact ih.cons₂ x

theorem length_removeFirst_of_mem {l : List Item} {r : Item} (h : r ∈ l) :
    (removeFirst l r).length + 1 = l.length := by
  induction l with
  | nil => cases h
  | cons x xs ih =>
    by_cases hx : x = r
    · simp [removeFirst, hx]
    · have hr : r ∈ xs := by
        rcases List.mem_cons.mp h with h' | h'
        · exact absurd h'.symm hx
        · exact h'
      simp [removeFirst, hx, ih hr]

theorem perm_cons_removeFirst {l : List Item} {r : Item} (h : r ∈ l) :
    l.Perm (r :: removeFirst l r) := by
  induction l with
  | nil => cases h
  | cons x xs ih =>
    by_cases hx : x = r
    · subst hx; simp [removeFirst]
    · have hr : r ∈ xs := by
        rcases List.mem_cons.mp h with h' | h'
        · exact absurd h'.symm hx
        · exact h'
      have h1 : List.Perm (x :: xs) (x :: (r :: removeFirst xs r)) := (ih hr).cons x
      simpa [removeFirst, hx] using h1.trans (List.Perm.swap r x _)

theorem sublist_removeFirst_cons :
    ∀ {cur : List Item} {r : Item} {rs : List Item},
      List.Sublist (r :: rs) cur → List.Sublist rs (removeFirst cur r) := by
  intro cur
  induction cur with
  | nil => intro r rs h; cases h
  | cons x cur' ih =>
    intro r rs h
    by_cases hx : x = r
    · subst hx
      rw [removeFirst_cons_self]
      cases h with
      | cons _ h' => exact (List.sublist_cons_self x rs).trans h'
      | cons₂ _ h' => exact h'
    · simp only [removeFirst, if_neg hx]
      cases h with
      | cons _ h' => exact (ih h').cons x
      | cons₂ _ h' => exact absurd rfl hx

/-! ### Forest algebra -/

namespace Forest

theorem nil_app (g : Forest) : Forest.nil.app g = g := rfl

theorem app_nil (t : Forest) : t.app .nil = t := by
  induction t with
  | nil => rfl
  | consN i p y rest ih => simp [app, ih]
  | consC i p y cs rest ihc ihr => simp [app, ihr]

theorem app_assoc (a b c : Forest) : (a.app b).app c = a.app (b.app c) := by
  induction a with
  | nil => rfl
  | consN i p y rest ih => simp [app, ih]
  | consC i p y cs rest ihc ihr => simp [app, ihr]

theorem appendNode_eq_app (t : Forest) (r : Item) :
    t.appendNode r = t.app (.consN r.id r.parent_id r.ym .nil) := by
  induction t with
  | nil => rfl
  | consN i p y rest ih => simp [appendNode, app, ih]
  | consC i p y cs rest ihc ihr => simp [appendNode, app, ihr]

theorem idsF_app (a b : Forest) : (a.app b).idsF = a.idsF ++ b.idsF := by
  induction a with
  | nil => rfl
  | consN i p y rest ih => simp [app, idsF, ih]
  | consC i p y cs rest ihc ihr => simp [app, idsF, ihr]

theorem flattenRecs_app (a b : Forest) :
    (a.app b).flattenRecs = a.flattenRecs ++ b.flattenRecs := by
  induction a with
  | nil => rfl
  | consN i p y rest ih => simp [app, flattenRecs, ih]
  | consC i p y cs rest ihc ihr => simp [app, flattenRecs, ihr]

theorem topRecs_app (a b : Forest) : (a.app b).topRecs = a.topRecs ++ b.topRecs := by
  induction a with
  | nil => rfl
  | consN i p y rest ih => simp [app, topRecs, ih]
  | consC i p y cs rest ihc ihr => simp [app, topRecs, ihr]

theorem descRecs_app (a b : Forest) :
    (a.app b).descRecs = a.descRecs ++ b.descRecs := by
  induction a with
  | nil => rfl
  | consN i p y rest ih => simp [app, descRecs, ih]
  | consC i p y cs rest ihc ihr => simp [app, descRecs, ihr]

theorem childEdges_app (a b : Forest) :
    (a.app b).childEdges = a.childEdges ++ b.childEdges := by
  induction a with
  | nil => rfl
  | consN i p y rest ih => simp [app, childEdges, ih]
  | consC i p y cs rest ihc ihr => simp [app, childEdges, ihr]

end Forest

theorem appendRecs_eq_app (rs : List Item) :
    ∀ t : Forest, appendRecs t rs = t.app (rootsForest rs) := by
  induction rs with
  | nil => intro t; simp [appendRecs, rootsForest, Forest.app_nil]
  | cons r rs ih =>
    intro t
    have h1 : appendRecs t (r :: rs) = appendRecs (t.appendNode r) rs := rfl
    rw [h1, ih, Forest.appendNode_eq_app, Forest.app_assoc]
    rfl

theorem idsF_rootsForest (rs : List Item) :
    (rootsForest rs).idsF = rs.map Item.id := by
  induction rs with
  | nil => rfl
  | cons r rs ih => simp [rootsForest, Forest.idsF, ih]

theorem topRecs_rootsForest (rs : List Item) : (rootsForest rs).topRecs = rs := by
  induction rs with
  | nil => rfl
  | cons r rs ih => simp [rootsForest, Forest.topRecs, ih]

theorem flattenRecs_rootsForest (rs : List Item) :
    (rootsForest rs).flattenRecs = rs := by
  induction rs with
  | nil => rfl
  | cons r rs ih => simp [rootsForest, Forest.flattenRecs, ih]

theorem childEdges_rootsForest (rs : List Item) :
    (rootsForest rs).childEdges = [] := by
  induction rs with
  | nil => rfl
  | cons r rs ih => simp [rootsForest, Forest.childEdges, ih]

theorem descRecs_rootsForest (rs : List Item) :
    (rootsForest rs).descRecs = [] := by
  induction rs with
  | nil => rfl
  | cons r rs ih => simp [rootsForest, Forest.descRecs, ih]

/-! ### Characterization of the partition pass -/

theorem roots_pass_eq :
    ∀ (s : List Item) (t : Forest) (c : List Item),
      (∀ x ∈ c, falsyPid x.parent_id = false) →
      roots_pass s t (c ++ s) =
        (appendRecs t (s.filter (fun r => falsyPid r.parent_id)),
         c ++ s.filter (fun r => !falsyPid r.parent_id)) := by
  intro s
  induction s with
  | nil => intro t c hc; simp [roots_pass, appendRecs]
  | cons r rs ih =>
    intro t c hc
    by_cases hf : falsyPid r.parent_id
    · have hrc : r ∉ c := fun hr => by
        have := hc r hr
        rw [hf] at this
        cases this
      have hcur : removeFirst (c ++ r :: rs) r = c ++ rs := by
        rw [removeFirst_append_of_not_mem _ hrc, removeFirst_cons_self]
      have hstep : roots_pass (r :: rs) t (c ++ r :: rs) =
          roots_pass rs (t.appendNode r) (c ++ rs) := by
        simp [roots_pass, hf, hcur]
      rw [hstep, ih (t.appendNode r) c hc]
      have hfil : List.filter (fun x => falsyPid x.parent_id) (r :: rs) =
          r :: List.filter (fun x => falsyPid x.parent_id) rs := by
        simp [List.filter, hf]
      have happ : appendRecs (t.appendNode r)
            (List.filter (fun x => falsyPid x.parent_id) rs) =
          appendRecs t (r :: List.filter (fun x => falsyPid x.parent_id) rs) := rfl
      rw [hfil, ← happ]
      simp [hf]
    · have hf' : falsyPid r.parent_id = false := by
        cases h : falsyPid r.parent_id
        · rfl
        · exact absurd h hf
      have hc' : ∀ x ∈ c ++ [r], falsyPid x.parent_id = false := by
        intro x hx
        rcases List.mem_append.mp hx with h | h
        · exact hc x h
        · simp at h; subst h; exact hf'
      have hstep : roots_pass (r :: rs) t (c ++ r :: rs) =
          roots_pass rs t ((c ++ [r]) ++ rs) := by
        simp [roots_pass, hf']
      rw [hstep, ih t (c ++ [r]) hc']
      simp [hf']

theorem roots_pass_spec (l : List Item) :
    roots_pass l .nil l =
      (rootsForest (l.filter (fun r => falsyPid r.parent_id)),
       l.filter (fun r => !falsyPid r.parent_id)) := by
  have h := roots_pass_eq l .nil [] (by intro x hx; cases hx)
  simpa [appendRecs_eq_app, Forest.nil_app] using h

/-! ### More forest algebra: `appendNode` as seen through the observers -/

theorem Item.eta (r : Item) : Item.mk r.id r.parent_id r.ym = r := rfl

namespace Forest

theorem idsF_appendNode (t : Forest) (r : Item) :
    (t.appendNode r).idsF = t.idsF ++ [r.id] := by
  rw [appendNode_eq_app, idsF_app]; rfl

theorem topRecs_appendNode (t : Forest) (r : Item) :
    (t.appendNode r).topRecs = t.topRecs ++ [r] := by
  rw [appendNode_eq_app, topRecs_app]; rfl

theorem flattenRecs_appendNode (t : Forest) (r : Item) :
    (t.appendNode r).flattenRecs = t.flattenRecs ++ [r] := by
  rw [appendNode_eq_app, flattenRecs_app]; rfl

theorem childEdges_appendNode (t : Forest) (r : Item) :
    (t.appendNode r).childEdges = t.childEdges := by
  rw [appendNode_eq_app, childEdges_app]
  simp [childEdges]

theorem appendNode_ne_nil (t : Forest) (r : Item) : t.appendNode r ≠ .nil := by
  cases t <;> simp [appendNode]

end Forest

theorem NonemptyCh_appendNode {t : Forest} (r : Item) (h : NonemptyCh t) :
    NonemptyCh (t.appendNode r) := by
  induction t with
  | nil => trivial
  | consN i p y rest ih => exact ih h
  | consC i p y cs rest ihc ihr =>
    exact ⟨h.1, h.2.1, ihr h.2.2⟩

/-! ### Lemmas about `find_parent_insert` -/

theorem perm_cons_swap_middle {α : Type} (a b : α) (l₁ l₂ : List α) :
    List.Perm (a :: (l₁ ++ b :: l₂)) (b :: a :: (l₁ ++ l₂)) := by
  have h1 : List.Perm (l₁ ++ b :: l₂) (b :: (l₁ ++ l₂)) := List.perm_middle
  exact (h1.cons a).trans (List.Perm.swap b a _)

/-- A successful `find_parent` + append adds exactly the id of the inserted
record to the flattened id list, up to permutation. -/
theorem find_parent_insert_idsF {r : Item} :
    ∀ {t t' : Forest}, find_parent_insert t r = some t' →
      List.Perm t'.idsF (r.id :: t.idsF) := by
  intro t
  induction t with
  | nil => intro t' h; cases h
  | consN i p y rest ih =>
    intro t' h
    by_cases hp : r.parent_id = some i
    · rw [find_parent_insert, if_pos hp] at h
      cases h
      simp only [Forest.idsF]
      exact List.Perm.swap r.id i _
    · rw [find_parent_insert, if_neg hp] at h
      cases heq : find_parent_insert rest r with
      | none => rw [heq] at h; cases h
      | some rest' =>
        rw [heq] at h
        cases h
        simp only [Forest.idsF]
        exact ((ih heq).cons i).trans (List.Perm.swap r.id i _)
  | consC i p y cs rest ihc ihr =>
    intro t' h
    by_cases hp : r.parent_id = some i
    · rw [find_parent_insert, if_pos hp] at h
      cases h
      simp only [Forest.idsF, Forest.idsF_appendNode]
      have h1 : (cs.idsF ++ [r.id]) ++ rest.idsF = cs.idsF ++ r.id :: rest.idsF := by
        simp
      rw [h1]
      exact perm_cons_swap_middle i r.id _ _
    · rw [find_parent_insert, if_neg hp] at h
      cases heqc : find_parent_insert cs r with
      | some cs' =>
        rw [heqc] at h
        cases h
        simp only [Forest.idsF]
        have h1 : List.Perm (cs'.idsF ++ rest.idsF) ((r.id :: cs.idsF) ++ rest.idsF) :=
          (ihc heqc).append_right _
        exact (h1.cons i).trans (List.Perm.swap r.id i _)
      | none =>
        rw [heqc] at h
        cases heqr : find_parent_insert rest r with
        | none => rw [heqr] at h; cases h
        | some rest' =>
          rw [heqr] at h
          cases h
          simp only [Forest.idsF]
          have h1 : List.Perm (cs.idsF ++ rest'.idsF) (cs.idsF ++ r.id :: rest.idsF) :=
            List.Perm.append_left _ (ihr heqr)
          exact (h1.cons i).trans (perm_cons_swap_middle i r.id _ _)

/-- A successful `find_parent` + append never changes the top-level
records: insertion happens inside some node's `children`. -/
theorem find_parent_insert_topRecs {r : Item} :
    ∀ {t t' : Forest}, find_parent_insert t r = some t' → t'.topRecs = t.topRecs := by
  intro t
  induction t with
  | nil => intro t' h; cases h
  | consN i p y rest ih =>
    intro t' h
    by_cases hp : r.parent_id = some i
    · rw [find_parent_insert, if_pos hp] at h
      cases h
      rfl
    · rw [find_parent_insert, if_neg hp] at h
      cases heq : find_parent_insert rest r with
      | none => rw [heq] at h; cases h
      | some rest' =>
        rw [heq] at h
        cases h
        simp only [Forest.topRecs, ih heq]
  | consC i p y cs rest ihc ihr =>
    intro t' h
    by_cases hp : r.parent_id = some i
    · rw [find_parent_insert, if_pos hp] at h
      cases h
      rfl
    · rw [find_parent_insert, if_neg hp] at h
      cases heqc : find_parent_insert cs r with
      | some cs' =>
        rw [heqc] at h
        cases h
        rfl
      | none =>
        rw [heqc] at h
        cases heqr : find_parent_insert rest r with
        | none => rw [heqr] at h; cases h
        | some rest' =>
          rw [heqr] at h
          cases h
          simp only [Forest.topRecs, ihr heqr]

/-- Every parent/child edge after a successful insertion is either an old
edge or the new edge, which attaches exactly the inserted record under a
node whose id its `parent_id` designates. -/
theorem find_parent_insert_childEdges {r : Item} :
    ∀ {t t' : Forest}, find_parent_insert t r = some t' →
      ∀ e ∈ t'.childEdges, e ∈ t.childEdges ∨ (e.2 = r ∧ r.parent_id = some e.1) := by
  intro t
  induction t with
  | nil => intro t' h; cases h
  | consN i p y rest ih =>
    intro t' h e he
    by_cases hp : r.parent_id = some i
    · rw [find_parent_insert, if_pos hp] at h
      cases h
      simp only [Forest.childEdges, Forest.topRecs, List.map] at he
      rcases List.mem_append.mp he with h1 | h1
      · simp at h1
        subst h1
        exact Or.inr ⟨Item.eta r, hp⟩
      · exact Or.inl h1
    · rw [find_parent_insert, if_neg hp] at h
      cases heq : find_parent_insert rest r with
      | none => rw [heq] at h; cases h
      | some rest' =>
        rw [heq] at h
        cases h
        exact ih heq e he
  | consC i p y cs rest ihc ihr =>
    intro t' h e he
    by_cases hp : r.parent_id = some i
    · rw [find_parent_insert, if_pos hp] at h
      cases h
      simp only [Forest.childEdges, Forest.topRecs_appendNode,
        Forest.childEdges_appendNode, List.map_append] at he
      rcases List.mem_append.mp he with h1 | h1
      · rcases List.mem_append.mp h1 with h2 | h2
        · exact Or.inl (by
            simp only [Forest.childEdges]
            exact List.mem_append.mpr (Or.inl h2))
        · simp at h2
          subst h2
          exact Or.inr ⟨Item.eta r, hp⟩
      · exact Or.inl (by
          simp only [Forest.childEdges]
          exact List.mem_append.mpr (Or.inr h1))
    · rw [find_parent_insert, if_neg hp] at h
      cases heqc : find_parent_insert cs r with
      | some cs' =>
        rw [heqc] at h
        cases h
        simp only [Forest.childEdges] at he ⊢
        rcases List.mem_append.mp he with h1 | h1
        · rw [find_parent_insert_topRecs heqc] at h1
          exact Or.inl (List.mem_append.mpr (Or.inl h1))
        · rcases List.mem_append.mp h1 with h2 | h2
          · rcases ihc heqc e h2 with h3 | h3
            · exact Or.inl (List.mem_append.mpr (Or.inr (List.mem_append.mpr (Or.inl h3))))
            · exact Or.inr h3
          · exact Or.inl (List.mem_append.mpr (Or.inr (List.mem_append.mpr (Or.inr h2))))
      | none =>
        rw [heqc] at h
        cases heqr : find_parent_insert rest r with
        | none => rw [heqr] at h; cases h
        | some rest' =>
          rw [heqr] at h
          cases h
          simp only [Forest.childEdges] at he ⊢
          rcases List.mem_append.mp he with h1 | h1
          · exact Or.inl (List.mem_append.mpr (Or.inl h1))
          · rcases List.mem_append.mp h1 with h2 | h2
            · exact Or.inl (List.mem_append.mpr (Or.inr (List.mem_append.mpr (Or.inl h2))))
            · rcases ihr heqr e h2 with h3 | h3
              · exact Or.inl (List.mem_append.mpr (Or.inr (List.mem_append.mpr (Or.inr h3))))
              · exact Or.inr h3

/-- `find_parent` fails exactly when no node of the forest carries the id
designated by the record's `parent_id` (in particular it always fails when
`parent_id` is null). -/
theorem find_parent_insert_none_iff (r : Item) :
    ∀ t : Forest, find_parent_insert t r = none ↔
      ∀ q, r.parent_id = some q → q ∉ t.idsF := by
  intro t
  induction t with
  | nil =>
    simp [find_parent_insert, Forest.idsF]
  | consN i p y rest ih =>
    by_cases hp : r.parent_id = some i
    · constructor
      · intro h
        rw [find_parent_insert, if_pos hp] at h
        cases h
      · intro h
        exact absurd (List.mem_cons_self i rest.idsF) (h i hp)
    · constructor
      · intro h q hq hmem
        have hrest : find_parent_insert rest r = none := by
          cases heq : find_parent_insert rest r with
          | none => rfl
          | some rest' =>
            rw [find_parent_insert, if_neg hp, heq] at h
            cases h
        rcases List.mem_cons.mp hmem with h1 | h1
        · exact hp (h1 ▸ hq)
        · exact (ih.mp hrest) q hq h1
      · intro h
        have hrest : find_parent_insert rest r = none :=
          ih.mpr (fun q hq hm => (h q hq) (List.mem_cons_of_mem i hm))
        rw [find_parent_insert, if_neg hp, hrest]
  | consC i p y cs rest ihc ihr =>
    by_cases hp : r.parent_id = some i
    · constructor
      · intro h
        rw [find_parent_insert, if_pos hp] at h
        cases h
      · intro h
        exact absurd (List.mem_cons_self i _) (h i hp)
    · constructor
      · intro h q hq hmem
        rw [find_parent_insert, if_neg hp] at h
        cases heqc : find_parent_insert cs r with
        | some cs' => rw [heqc] at h; cases h
        | none =>
          rw [heqc] at h
          cases heqr : find_parent_insert rest r with
          | some rest' => rw [heqr] at h; cases h
          | none =>
            rcases List.mem_cons.mp hmem with h1 | h1
            · exact hp (h1 ▸ hq)
            · rcases List.mem_append.mp h1 with h2 | h2
              · exact (ihc.mp heqc) q hq h2
              · exact (ihr.mp heqr) q hq h2
      · intro h
        have hcs : find_parent_insert cs r = none :=
          ihc.mpr (fun q hq hm =>
            (h q hq) (List.mem_cons_of_mem i (List.mem_append.mpr (Or.inl hm))))
        have hrest : find_parent_insert rest r = none :=
          ihr.mpr (fun q hq hm =>
            (h q hq) (List.mem_cons_of_mem i (List.mem_append.mpr (Or.inr hm))))
        rw [find_parent_insert, if_neg hp, hcs, hrest]

/-- `find_parent` + append preserves nonemptiness of every `children`
sequence: the key is created with a one-element sequence and only ever
appended to. -/
theorem find_parent_insert_nonemptyCh {r : Item} :
    ∀ {t t' : Forest}, find_parent_insert t r = some t' →
      NonemptyCh t → NonemptyCh t' := by
  intro t
  induction t with
  | nil => intro t' h; cases h
  | consN i p y rest ih =>
    intro t' h hne
    by_cases hp : r.parent_id = some i
    · rw [find_parent_insert, if_pos hp] at h
      cases h
      exact ⟨by simp, trivial, hne⟩
    · rw [find_parent_insert, if_neg hp] at h
      cases heq : find_parent_insert rest r with
      | none => rw [heq] at h; cases h
      | some rest' =>
        rw [heq] at h
        cases h
        have h5 := ih heq hne
        simpa [NonemptyCh] using h5
  | consC i p y cs rest ihc ihr =>
    intro t' h hne
    by_cases hp : r.parent_id = some i
    · rw [find_parent_insert, if_pos hp] at h
      cases h
      exact ⟨Forest.appendNode_ne_nil cs r, NonemptyCh_appendNode r hne.2.1, hne.2.2⟩
    · rw [find_parent_insert, if_neg hp] at h
      cases heqc : find_parent_insert cs r with
      | some cs' =>
        rw [heqc] at h
        cases h
        rcases hne with ⟨h1, h2, h3⟩
        refine ⟨?_, ihc heqc h2, h3⟩
        intro hnil
        rw [hnil] at heqc
        have hperm := find_parent_insert_idsF heqc
        have hlen := hperm.length_eq
        simp [Forest.idsF] at hlen
      | none =>
        rw [heqc] at h
        cases heqr : find_parent_insert rest r with
        | none => rw [heqr] at h; cases h
        | some rest' =>
          rw [heqr] at h
          cases h
          exact ⟨hne.1, hne.2.1, ihr heqr hne.2.2⟩

/-! ### Lemmas about a single pass of the while loop (`attach_pass`) -/

theorem attach_pass_sublist :
    ∀ (s : List Item) (t : Forest) (cur : List Item),
      List.Sublist (attach_pass s t cur).2 cur := by
  intro s
  induction s with
  | nil => intro t cur; exact List.Sublist.refl _
  | cons r rs ih =>
    intro t cur
    cases heq : find_parent_insert t r with
    | none => simpa [attach_pass, heq] using ih t cur
    | some t' =>
      have h1 : List.Sublist (attach_pass rs t' (removeFirst cur r)).2 (removeFirst cur r) :=
        ih t' (removeFirst cur r)
      have h2 := h1.trans (removeFirst_sublist cur r)
      simpa [attach_pass, heq] using h2


/-- Conservation through one pass: the ids of the forest plus the ids of
the remaining records form the same multiset before and after the pass
(each successful attachment moves one record from the list into the
forest).  The hypothesis says the snapshot is (at least) the current list,
as it is when the pass starts. -/
theorem attach_pass_conserv :
    ∀ (s : List Item) (t : Forest) (cur : List Item),
      List.Sublist s cur →
      List.Perm
        ((attach_pass s t cur).1.idsF ++ (attach_pass s t cur).2.map Item.id)
        (t.idsF ++ cur.map Item.id) := by
  intro s
  induction s with
  | nil => intro t cur _; exact List.Perm.refl _
  | cons r rs ih =>
    intro t cur hs
    have hrs : List.Sublist rs cur :=
      (List.sublist_cons_self r rs).trans hs
    have hrmem : r ∈ cur := hs.subset (List.mem_cons_self r rs)
    cases heq : find_parent_insert t r with
    | none =>
      simpa [attach_pass, heq] using ih t cur hrs
    | some t' =>
      have hsub : List.Sublist rs (removeFirst cur r) := sublist_removeFirst_cons hs
      have h1 := ih t' (removeFirst cur r) hsub
      have h2 : List.Perm (t'.idsF ++ (removeFirst cur r).map Item.id)
          (t.idsF ++ cur.map Item.id) := by
        have ha : List.Perm (t'.idsF ++ (removeFirst cur r).map Item.id)
            ((r.id :: t.idsF) ++ (removeFirst cur r).map Item.id) :=
          (find_parent_insert_idsF heq).append_right _
        have hb : List.Perm (cur.map Item.id)
            (r.id :: (removeFirst cur r).map Item.id) := by
          simpa using (perm_cons_removeFirst hrmem).map Item.id
        have hc : List.Perm (t.idsF ++ cur.map Item.id)
            (t.idsF ++ r.id :: (removeFirst cur r).map Item.id) :=
          List.Perm.append_left _ hb
        have hd : List.Perm (t.idsF ++ r.id :: (removeFirst cur r).map Item.id)
            (r.id :: (t.idsF ++ (removeFirst cur r).map Item.id)) :=
          List.perm_middle
        exact ha.trans (hc.trans hd).symm
      have h3 := h1.trans h2
      simpa [attach_pass, heq] using h3

/-- A pass either leaves the state exactly unchanged (so the Python while
loop would repeat it forever) or strictly shrinks the remaining list. -/
theorem attach_pass_progress_or_fixed :
    ∀ (s : List Item) (t : Forest) (cur : List Item),
      List.Sublist s cur →
      attach_pass s t cur = (t, cur) ∨ (attach_pass s t cur).2.length < cur.length := by
  intro s
  induction s with
  | nil => intro t cur _; exact Or.inl rfl
  | cons r rs ih =>
    intro t cur hs
    have hrs : List.Sublist rs cur := (List.sublist_cons_self r rs).trans hs
    have hrmem : r ∈ cur := hs.subset (List.mem_cons_self r rs)
    cases heq : find_parent_insert t r with
    | none =>
      rcases ih t cur hrs with h | h
      · exact Or.inl (by simpa [attach_pass, heq] using h)
      · exact Or.inr (by simpa [attach_pass, heq] using h)
    | some t' =>
      refine Or.inr ?_
      have h1 : List.Sublist (attach_pass rs t' (removeFirst cur r)).2 (removeFirst cur r) :=
        attach_pass_sublist rs t' (removeFirst cur r)
      have h2 : (attach_pass rs t' (removeFirst cur r)).2.length ≤ (removeFirst cur r).length :=
        h1.length_le
      have h3 : (removeFirst cur r).length < cur.length := by
        have := length_removeFirst_of_mem hrmem
        omega
      have h4 := Nat.lt_of_le_of_lt h2 h3
      simpa [attach_pass, heq] using h4

/-- If some record of the snapshot can already find its parent in the
forest, the pass strictly shrinks the remaining list. -/
theorem attach_pass_progress :
    ∀ (s : List Item) (t : Forest) (cur : List Item),
      List.Sublist s cur →
      (∃ r ∈ s, ∃ q, r.parent_id = some q ∧ q ∈ t.idsF) →
      (attach_pass s t cur).2.length < cur.length := by
  intro s
  induction s with
  | nil => intro t cur _ h; rcases h with ⟨r, hr, _⟩; cases hr
  | cons r rs ih =>
    intro t cur hs hwit
    have hrs : List.Sublist rs cur := (List.sublist_cons_self r rs).trans hs
    have hrmem : r ∈ cur := hs.subset (List.mem_cons_self r rs)
    cases heq : find_parent_insert t r with
    | some t' =>
      have h1 : List.Sublist (attach_pass rs t' (removeFirst cur r)).2 (removeFirst cur r) :=
        attach_pass_sublist rs t' (removeFirst cur r)
      have h2 := h1.length_le
      have h3 : (removeFirst cur r).length < cur.length := by
        have := length_removeFirst_of_mem hrmem
        omega
      have h4 := Nat.lt_of_le_of_lt h2 h3
      simpa [attach_pass, heq] using h4
    | none =>
      rcases hwit with ⟨x, hx, q, hq, hqmem⟩
      rcases List.mem_cons.mp hx with h1 | h1
      · subst h1
        exact absurd hqmem ((find_parent_insert_none_iff x t).mp heq q hq)
      · have h5 := ih t cur hrs ⟨x, h1, q, hq, hqmem⟩
        simpa [attach_pass, heq] using h5

/-- A pass never changes the top-level records. -/
theorem attach_pass_topRecs :
    ∀ (s : List Item) (t : Forest) (cur : List Item),
      (attach_pass s t cur).1.topRecs = t.topRecs := by
  intro s
  induction s with
  | nil => intro t cur; rfl
  | cons r rs ih =>
    intro t cur
    cases heq : find_parent_insert t r with
    | none => simpa [attach_pass, heq] using ih t cur
    | some t' =>
      have h1 := ih t' (removeFirst cur r)
      rw [find_parent_insert_topRecs heq] at h1
      simpa [attach_pass, heq] using h1

/-- Every edge after a pass is an old edge or attaches some record of the
snapshot under a node carrying exactly its `parent_id`. -/
theorem attach_pass_childEdges :
    ∀ (s : List Item) (t : Forest) (cur : List Item),
      ∀ e ∈ (attach_pass s t cur).1.childEdges,
        e ∈ t.childEdges ∨ ∃ r ∈ s, e.2 = r ∧ r.parent_id = some e.1 := by
  intro s
  induction s with
  | nil => intro t cur e he; exact Or.inl he
  | cons r rs ih =>
    intro t cur e he
    cases heq : find_parent_insert t r with
    | none =>
      rw [attach_pass, heq] at he
      rcases ih t cur e he with h | ⟨x, hx, hex⟩
      · exact Or.inl h
      · exact Or.inr ⟨x, List.mem_cons_of_mem r hx, hex⟩
    | some t' =>
      rw [attach_pass, heq] at he
      rcases ih t' (removeFirst cur r) e he with h | ⟨x, hx, hex⟩
      · rcases find_parent_insert_childEdges heq e h with h2 | h2
        · exact Or.inl h2
        · exact Or.inr ⟨r, List.mem_cons_self r rs, h2⟩
      · exact Or.inr ⟨x, List.mem_cons_of_mem r hx, hex⟩

/-- A pass preserves nonemptiness of all `children` sequences. -/
theorem attach_pass_nonemptyCh :
    ∀ (s : List Item) (t : Forest) (cur : List Item),
      NonemptyCh t → NonemptyCh (attach_pass s t cur).1 := by
  intro s
  induction s with
  | nil => intro t cur h; exact h
  | cons r rs ih =>
    intro t cur h
    cases heq : find_parent_insert t r with
    | none => simpa [attach_pass, heq] using ih t cur h
    | some t' =>
      have h1 := ih t' (removeFirst cur r) (find_parent_insert_nonemptyCh heq h)
      simpa [attach_pass, heq] using h1

/-! ### Lemmas about the while loop (`attach_loop`) -/

theorem attach_loop_empty (fuel : Nat) (t : Forest) :
    attach_loop fuel t [] = some (t, []) := by
  cases fuel <;> simp [attach_loop]

theorem attach_loop_zero {cur : List Item} (h : cur ≠ []) (t : Forest) :
    attach_loop 0 t cur = none := by
  simp [attach_loop, h]

theorem attach_loop_step {cur : List Item} (h : cur ≠ []) (fuel : Nat) (t : Forest) :
    attach_loop (fuel + 1) t cur =
      attach_loop fuel (attach_pass cur t cur).1 (attach_pass cur t cur).2 := by
  simp [attach_loop, h]

/-- If one pass leaves a nonempty state unchanged, the Python while loop
repeats that same pass forever; the fuelled loop reports this as `none`
however much fuel it is given. -/
theorem attach_loop_fixed_none :
    ∀ (fuel : Nat) (t : Forest) (cur : List Item), cur ≠ [] →
      attach_pass cur t cur = (t, cur) → attach_loop fuel t cur = none := by
  intro fuel
  induction fuel with
  | zero => intro t cur h _; exact attach_loop_zero h t
  | succ fuel ih =>
    intro t cur h hfix
    rw [attach_loop_step h, hfix]
    exact ih t cur h hfix

/-- Preservation through the whole loop, conditioned on successful exit:
the final list is empty, ids are conserved, top-level records are those of
the initial forest, every new edge attaches a record of the initial list
under a node carrying its `parent_id`, and `children` nonemptiness is
preserved. -/
theorem attach_loop_some :
    ∀ (fuel : Nat) (t : Forest) (cur : List Item) (t' : Forest) (c' : List Item),
      attach_loop fuel t cur = some (t', c') →
      c' = [] ∧
      List.Perm t'.idsF (t.idsF ++ cur.map Item.id) ∧
      t'.topRecs = t.topRecs ∧
      (∀ e ∈ t'.childEdges,
        e ∈ t.childEdges ∨ ∃ r ∈ cur, e.2 = r ∧ r.parent_id = some e.1) ∧
      (NonemptyCh t → NonemptyCh t') := by
  intro fuel
  induction fuel with
  | zero =>
    intro t cur t' c' h
    by_cases hc : cur = []
    · subst hc
      rw [attach_loop_empty] at h
      cases h
      exact ⟨rfl, by simp, rfl, fun e he => Or.inl he, fun h => h⟩
    · rw [attach_loop_zero hc] at h
      cases h
  | succ fuel ih =>
    intro t cur t' c' h
    by_cases hc : cur = []
    · subst hc
      rw [attach_loop_empty] at h
      cases h
      exact ⟨rfl, by simp, rfl, fun e he => Or.inl he, fun h => h⟩
    · rw [attach_loop_step hc] at h
      rcases ih _ _ _ _ h with ⟨h1, h2, h3, h4, h5⟩
      have hsub : List.Sublist cur cur := List.Sublist.refl _
      refine ⟨h1, ?_, ?_, ?_, ?_⟩
      · have hcons := attach_pass_conserv cur t cur hsub
        exact h2.trans hcons
      · rw [h3, attach_pass_topRecs]
      · intro e he
        rcases h4 e he with h6 | ⟨r, hr, hre⟩
        · rcases attach_pass_childEdges cur t cur e h6 with h7 | ⟨r, hr, hre⟩
          · exact Or.inl h7
          · exact Or.inr ⟨r, hr, hre⟩
        · have : r ∈ cur := (attach_pass_sublist cur t cur).subset hr
          exact Or.inr ⟨r, this, hre⟩
      · intro hne
        exact h5 (attach_pass_nonemptyCh cur t cur hne)

/-- A nonempty finite list has an element minimizing any `Nat`-valued
measure. -/
theorem exists_min_measure {α : Type} (f : α → Nat) :
    ∀ (l : List α), l ≠ [] → ∃ a ∈ l, ∀ b ∈ l, f a ≤ f b := by
  intro l
  induction l with
  | nil => intro h; exact absurd rfl h
  | cons x xs ih =>
    intro _
    by_cases hxs : xs = []
    · subst hxs
      refine ⟨x, List.mem_cons_self x [], ?_⟩
      intro b hb
      rcases List.mem_cons.mp hb with h | h
      · subst h; exact Nat.le_refl _
      · cases h
    · rcases ih hxs with ⟨a, ha, hmin⟩
      by_cases hfa : f x ≤ f a
      · refine ⟨x, List.mem_cons_self x xs, ?_⟩
        intro b hb
        rcases List.mem_cons.mp hb with h | h
        · subst h; exact Nat.le_refl _
        · exact Nat.le_trans hfa (hmin b h)
      · refine ⟨a, List.mem_cons_of_mem x ha, ?_⟩
        intro b hb
        rcases List.mem_cons.mp hb with h | h
        · subst h; exact Nat.le_of_lt (Nat.lt_of_not_le hfa)
        · exact hmin b h

/-- Totality of the loop: if every remaining record has a `parent_id`,
parent ids always point either into the forest or at a remaining record,
and a depth measure witnesses acyclicity, then `cur.length` passes empty
the list. -/
theorem attach_loop_total (depth : Nat → Nat) :
    ∀ (fuel : Nat) (t : Forest) (cur : List Item),
      cur.length ≤ fuel →
      (∀ r ∈ cur, ∃ q, r.parent_id = some q) →
      (∀ r ∈ cur, ∀ q, r.parent_id = some q → depth q < depth r.id) →
      (∀ r ∈ cur, ∀ q, r.parent_id = some q →
        q ∈ t.idsF ∨ ∃ x ∈ cur, x.id = q) →
      ∃ t', attach_loop fuel t cur = some (t', []) := by
  intro fuel
  induction fuel with
  | zero =>
    intro t cur hlen _ _ _
    have hc : cur = [] := List.eq_nil_of_length_eq_zero (Nat.le_zero.mp hlen)
    subst hc
    exact ⟨t, attach_loop_empty 0 t⟩
  | succ fuel ih =>
    intro t cur hlen hsome hdepth havail
    by_cases hc : cur = []
    · subst hc
      exact ⟨t, attach_loop_empty _ t⟩
    · -- pick a record of minimal depth: its parent cannot still be waiting
      rcases exists_min_measure (fun r => depth r.id) cur hc with ⟨r, hr, hmin⟩
      rcases hsome r hr with ⟨q, hq⟩
      have hqin : q ∈ t.idsF := by
        rcases havail r hr q hq with h | ⟨x, hx, hxq⟩
        · exact h
        · exfalso
          have h1 : depth q < depth r.id := hdepth r hr q hq
          have h2 : depth r.id ≤ depth x.id := hmin x hx
          rw [hxq] at h2
          omega
      have hprog : (attach_pass cur t cur).2.length < cur.length :=
        attach_pass_progress cur t cur (List.Sublist.refl _) ⟨r, hr, q, hq, hqin⟩
      have hsub : List.Sublist (attach_pass cur t cur).2 cur :=
        attach_pass_sublist cur t cur
      have hcons := attach_pass_conserv cur t cur (List.Sublist.refl _)
      have hlen' : (attach_pass cur t cur).2.length ≤ fuel := by omega
      have hsome' : ∀ x ∈ (attach_pass cur t cur).2, ∃ q', x.parent_id = some q' :=
        fun x hx => hsome x (hsub.subset hx)
      have hdepth' : ∀ x ∈ (attach_pass cur t cur).2, ∀ q',
          x.parent_id = some q' → depth q' < depth x.id :=
        fun x hx => hdepth x (hsub.subset hx)
      have havail' : ∀ x ∈ (attach_pass cur t cur).2, ∀ q',
          x.parent_id = some q' →
          q' ∈ (attach_pass cur t cur).1.idsF ∨
            ∃ z ∈ (attach_pass cur t cur).2, z.id = q' := by
        intro x hx q' hq'
        have hx' : x ∈ cur := hsub.subset hx
        have hold : q' ∈ t.idsF ++ cur.map Item.id := by
          rcases havail x hx' q' hq' with h | ⟨z, hz, hzq⟩
          · exact List.mem_append.mpr (Or.inl h)
          · exact List.mem_append.mpr (Or.inr (List.mem_map.mpr ⟨z, hz, hzq⟩))
        have hnew : q' ∈ (attach_pass cur t cur).1.idsF ++
            (attach_pass cur t cur).2.map Item.id :=
          hcons.mem_iff.mpr hold
        rcases List.mem_append.mp hnew with h | h
        · exact Or.inl h
        · rcases List.mem_map.mp h with ⟨z, hz, hzq⟩
          exact Or.inr ⟨z, hz, hzq⟩
      rcases ih (attach_pass cur t cur).1 (attach_pass cur t cur).2
        hlen' hsome' hdepth' havail' with ⟨t', ht'⟩
      exact ⟨t', by rw [attach_loop_step hc]; exact ht'⟩

theorem NonemptyCh_rootsForest (rs : List Item) : NonemptyCh (rootsForest rs) := by
  induction rs with
  | nil => trivial
  | cons r rs ih => exact ih

/-- Unfold `list_to_tree_run` through the partition-pass characterization. -/
theorem list_to_tree_run_eq (l : List Item) :
    list_to_tree_run l =
      attach_loop (l.filter (fun r => !falsyPid r.parent_id)).length
        (rootsForest (l.filter (fun r => falsyPid r.parent_id)))
        (l.filter (fun r => !falsyPid r.parent_id)) := by
  have hrp := roots_pass_spec l
  simp [list_to_tree_run, hrp]

/-- Everything `list_to_tree` guarantees whenever it terminates, for an
arbitrary input: conservation of ids, top level = the falsy-`parent_id`
records in order, every edge attaches a child under a node carrying its
(truthy) `parent_id`, every `children` sequence is nonempty, and the
caller's list is left empty. -/
theorem list_to_tree_some_spec :
    ∀ {l : List Item} {t : Forest}, list_to_tree l = some t →
      List.Perm t.idsF (l.map Item.id) ∧
      t.topRecs = l.filter (fun r => falsyPid r.parent_id) ∧
      EdgesOk t ∧ EdgesTruthy t ∧ NonemptyCh t ∧ input_list_after l = some [] := by
  intro l t h
  rcases Option.map_eq_some'.mp h with ⟨⟨t₁, c'⟩, hrun0, hfst⟩
  have ht₁ : t₁ = t := hfst
  subst ht₁
  have hrun : attach_loop (l.filter (fun r => !falsyPid r.parent_id)).length
      (rootsForest (l.filter (fun r => falsyPid r.parent_id)))
      (l.filter (fun r => !falsyPid r.parent_id)) = some (t₁, c') := by
    rw [← list_to_tree_run_eq l]; exact hrun0
  rcases attach_loop_some _ _ _ _ _ hrun with ⟨hc', hperm, htop, hedges, hne⟩
  have hcurmem : ∀ r ∈ l.filter (fun r => !falsyPid r.parent_id),
      falsyPid r.parent_id = false := by
    intro r hr
    have hb := (List.mem_filter.mp hr).2
    simpa using hb
  refine ⟨?_, ?_, ?_, ?_, ?_, ?_⟩
  · have h1 : (rootsForest (l.filter (fun r => falsyPid r.parent_id))).idsF =
        (l.filter (fun r => falsyPid r.parent_id)).map Item.id :=
      idsF_rootsForest _
    rw [h1] at hperm
    have h2 : List.Perm
        ((l.filter (fun r => falsyPid r.parent_id)).map Item.id ++
          (l.filter (fun r => !falsyPid r.parent_id)).map Item.id)
        (l.map Item.id) := by
      have h3 := (List.filter_append_perm (fun r => falsyPid r.parent_id) l).map Item.id
      simpa using h3
    exact hperm.trans h2
  · rw [htop, topRecs_rootsForest]
  · intro e he
    rcases hedges e he with h1 | ⟨r, hr, he2, hpe⟩
    · rw [childEdges_rootsForest] at h1
      cases h1
    · rw [he2]
      exact hpe
  · intro e he
    rcases hedges e he with h1 | ⟨r, hr, he2, hpe⟩
    · rw [childEdges_rootsForest] at h1
      cases h1
    · rw [he2]
      exact hcurmem r hr
  · exact hne (NonemptyCh_rootsForest _)
  · simp [input_list_after, hrun0, hc']

/-- Termination of `list_to_tree` for resolvable acyclic inputs. -/
theorem list_to_tree_total (l : List Item) (depth : Nat → Nat)
    (hres : Resolvable l) (hdep : AcyclicDepth l depth) :
    ∃ t, list_to_tree l = some t := by
  have hsome : ∀ r ∈ l.filter (fun r => !falsyPid r.parent_id),
      ∃ q, r.parent_id = some q := by
    intro r hr
    have hb := (List.mem_filter.mp hr).2
    cases hpid : r.parent_id with
    | none => rw [hpid] at hb; simp [falsyPid] at hb
    | some q => exact ⟨q, rfl⟩
  have hdepth : ∀ r ∈ l.filter (fun r => !falsyPid r.parent_id),
      ∀ q, r.parent_id = some q → depth q < depth r.id :=
    fun r hr => hdep r (List.mem_filter.mp hr).1
  have havail : ∀ r ∈ l.filter (fun r => !falsyPid r.parent_id),
      ∀ q, r.parent_id = some q →
        q ∈ (rootsForest (l.filter (fun r => falsyPid r.parent_id))).idsF ∨
          ∃ x ∈ l.filter (fun r => !falsyPid r.parent_id), x.id = q := by
    intro r hr q hq
    rcases hres r (List.mem_filter.mp hr).1 q hq with ⟨x, hx, hxq⟩
    by_cases hfx : falsyPid x.parent_id
    · refine Or.inl ?_
      rw [idsF_rootsForest]
      exact List.mem_map.mpr ⟨x, List.mem_filter.mpr ⟨hx, hfx⟩, hxq⟩
    · refine Or.inr ⟨x, List.mem_filter.mpr ⟨hx, by simpa using hfx⟩, hxq⟩
  rcases attach_loop_total depth _ _ _ (Nat.le_refl _) hsome hdepth havail with ⟨t, ht⟩
  refine ⟨t, ?_⟩
  rw [list_to_tree, list_to_tree_run_eq l, ht]
  rfl

/-- Classification of any node of a forest: it is a top-level node or the
child end of some edge. -/
theorem mem_flattenRecs_cases :
    ∀ (t : Forest) (r : Item), r ∈ t.flattenRecs →
      r ∈ t.topRecs ∨ ∃ q, (q, r) ∈ t.childEdges := by
  intro t
  induction t with
  | nil => intro r h; cases h
  | consN i p y rest ih =>
    intro r h
    rcases List.mem_cons.mp h with h1 | h1
    · exact Or.inl (h1 ▸ List.mem_cons_self _ _)
    · rcases ih r h1 with h2 | ⟨q, h2⟩
      · exact Or.inl (List.mem_cons_of_mem _ h2)
      · exact Or.inr ⟨q, h2⟩
  | consC i p y cs rest ihc ihr =>
    intro r h
    rcases List.mem_cons.mp h with h1 | h1
    · exact Or.inl (h1 ▸ List.mem_cons_self _ _)
    · rcases List.mem_append.mp h1 with h2 | h2
      · rcases ihc r h2 with h3 | ⟨q, h3⟩
        · refine Or.inr ⟨i, ?_⟩
          simp only [Forest.childEdges]
          exact List.mem_append.mpr (Or.inl (List.mem_map.mpr ⟨r, h3, rfl⟩))
        · refine Or.inr ⟨q, ?_⟩
          simp only [Forest.childEdges]
          exact List.mem_append.mpr (Or.inr (List.mem_append.mpr (Or.inl h3)))
      · rcases ihr r h2 with h3 | ⟨q, h3⟩
        · exact Or.inl (List.mem_cons_of_mem _ h3)
        · refine Or.inr ⟨q, ?_⟩
          simp only [Forest.childEdges]
          exact List.mem_append.mpr (Or.inr (List.mem_append.mpr (Or.inr h3)))

/-- Claim C1: for every flat input whose parent graph is fully resolvable
and acyclic (witnessed by a rank function on ids), `list_to_tree`
terminates and is lossless: the ids obtained by flattening the output
forest recursively through every `children` field are a permutation of
(i.e. the same multiset as) the input ids, so each input record appears
exactly once in the forest. -/
theorem C1_materialization_lossless (l : List Item) (depth : Nat → Nat)
    (hres : Resolvable l) (hdep : AcyclicDepth l depth) :
    ∃ t, list_to_tree l = some t ∧ List.Perm t.idsF (l.map Item.id) := by
  rcases list_to_tree_total l depth hres hdep with ⟨t, ht⟩
  exact ⟨t, ht, (list_to_tree_some_spec ht).1⟩

theorem C1_materialization_lossless_witness :
    ∃ t, list_to_tree [⟨1, none, 0⟩, ⟨2, some 1, 0⟩] = some t ∧
      List.Perm t.idsF ([(⟨1, none, 0⟩ : Item), ⟨2, some 1, 0⟩].map Item.id) := by
  apply C1_materialization_lossless [⟨1, none, 0⟩, ⟨2, some 1, 0⟩] (fun n => n)
  · intro r hr p hp
    rcases List.mem_cons.mp hr with h | h
    · subst h; cases hp
    · rcases List.mem_cons.mp h with h' | h'
      · subst h'
        injection hp with h2
        subst h2
        exact ⟨⟨1, none, 0⟩, by simp, rfl⟩
      · cases h'
  · intro r hr p hp
    rcases List.mem_cons.mp hr with h | h
    · subst h; cases hp
    · rcases List.mem_cons.mp h with h' | h'
      · subst h'
        injection hp with h2
        subst h2
        decide
      · cases h'

/-- Claim C2 (code bug): on the dangling-reference input
`[{id:1, parent_id:99}]` the pass of the while loop attaches nothing and
leaves the state exactly unchanged, so the Python `while len(list) > 0`
loop runs forever: the fuelled model returns `none` for every fuel, and
`list_to_tree` diverges instead of terminating as the spec demands. -/
theorem C2_dangling_reference_hangs :
    attach_pass [⟨1, some 99, 0⟩] Forest.nil [⟨1, some 99, 0⟩] =
        (Forest.nil, [⟨1, some 99, 0⟩]) ∧
      (∀ fuel, attach_loop fuel Forest.nil [⟨1, some 99, 0⟩] = none) ∧
      list_to_tree [⟨1, some 99, 0⟩] = none := by
  refine ⟨rfl, ?_, rfl⟩
  intro fuel
  exact attach_loop_fixed_none fuel _ _ (by simp) rfl

/-- Claim C3 counterexample: for the input `[{id:1, parent_id:0}]` the
record has a non-null `parent_id` (0), yet `list_to_tree` places it at the
top level (Python truthiness treats 0 like null), in no `children`
sequence at all — the claim quantifies over every input and fails here. -/
theorem C3_counterexample : ¬ NestedUnderParentProp [⟨1, some 0, 0⟩] := by
  intro h
  have h2 := h (.consN 1 (some 0) 0 .nil) rfl ⟨1, some 0, 0⟩
    (by simp [Forest.flattenRecs]) 0 rfl
  simp [Forest.childEdges] at h2

/-- Claim C3 as amended: every node of the output forest whose `parent_id`
is non-null AND nonzero (truthy in Python) sits in the `children` sequence
of a node whose id equals that `parent_id`. -/
theorem C3_amended_nested_under_parent (l : List Item) (t : Forest) (r : Item)
    (p : Nat) (ht : list_to_tree l = some t) (hmem : r ∈ t.flattenRecs)
    (hp : r.parent_id = some p) (hp0 : p ≠ 0) : (p, r) ∈ t.childEdges := by
  rcases list_to_tree_some_spec ht with ⟨_, htop, hok, _, _, _⟩
  rcases mem_flattenRecs_cases t r hmem with h1 | ⟨q, h1⟩
  · exfalso
    rw [htop] at h1
    have hb := (List.mem_filter.mp h1).2
    rw [hp] at hb
    simp [falsyPid] at hb
    exact hp0 hb
  · have hq := hok (q, r) h1
    rw [hp] at hq
    injection hq with h2
    rw [h2]
    exact h1

theorem C3_amended_witness :
    ((1 : Nat), (⟨2, some 1, 0⟩ : Item)) ∈
      (Forest.consC 1 none 0 (.consN 2 (some 1) 0 .nil) .nil).childEdges :=
  C3_amended_nested_under_parent [⟨1, none, 0⟩, ⟨2, some 1, 0⟩] _ _ _ rfl
    (by simp [Forest.flattenRecs]) rfl (by decide)

/-- Claim C4: for resolvable acyclic inputs the while loop terminates
(each pass attaches at least the records whose parents are already placed,
so the remaining collection strictly shrinks): `list_to_tree` returns a
value. -/
theorem C4_terminates_on_forest_inputs (l : List Item) (depth : Nat → Nat)
    (hres : Resolvable l) (hdep : AcyclicDepth l depth) :
    (list_to_tree l).isSome = true := by
  rcases list_to_tree_total l depth hres hdep with ⟨t, ht⟩
  rw [ht]
  rfl

theorem C4_terminates_witness :
    (list_to_tree [⟨1, none, 0⟩, ⟨2, some 1, 0⟩, ⟨3, some 2, 0⟩]).isSome = true := by
  apply C4_terminates_on_forest_inputs
    [⟨1, none, 0⟩, ⟨2, some 1, 0⟩, ⟨3, some 2, 0⟩] (fun n => n)
  · intro r hr p hp
    rcases List.mem_cons.mp hr with h | h
    · subst h; cases hp
    · rcases List.mem_cons.mp h with h' | h'
      · subst h'
        injection hp with h2
        subst h2
        exact ⟨⟨1, none, 0⟩, by simp, rfl⟩
      · rcases List.mem_cons.mp h' with h'' | h''
        · subst h''
          injection hp with h2
          subst h2
          exact ⟨⟨2, some 1, 0⟩, by simp, rfl⟩
        · cases h''
  · intro r hr p hp
    rcases List.mem_cons.mp hr with h | h
    · subst h; cases hp
    · rcases List.mem_cons.mp h with h' | h'
      · subst h'
        injection hp with h2
        subst h2
        decide
      · rcases List.mem_cons.mp h' with h'' | h''
        · subst h''
          injection hp with h2
          subst h2
          decide
        · cases h''

/-- Claim C5 counterexample: on the spec's concrete chain input the code
produces the claimed nesting (1→2→3 with 4 a second root) but the leaves
(3 and 4) carry NO `children` key at all — the key is created only when a
first child is appended — whereas the claim says every leaf carries an
empty `children` sequence. -/
theorem C5_counterexample :
    list_to_tree [⟨1, none, 0⟩, ⟨2, some 1, 0⟩, ⟨3, some 2, 0⟩, ⟨4, none, 0⟩] =
        some (.consC 1 none 0
          (.consC 2 (some 1) 0 (.consN 3 (some 2) 0 .nil) .nil)
          (.consN 4 none 0 .nil)) ∧
      list_to_tree [⟨1, none, 0⟩, ⟨2, some 1, 0⟩, ⟨3, some 2, 0⟩, ⟨4, none, 0⟩] ≠
        some (.consC 1 none 0
          (.consC 2 (some 1) 0 (.consC 3 (some 2) 0 .nil .nil) .nil)
          (.consC 4 none 0 .nil .nil)) := by
  exact ⟨rfl, by decide⟩

/-- Claim C5 as amended: the chain nests in order with 4 a second root,
and the leaves carry no `children` field (rather than an empty one). -/
theorem C5_amended_chain_scenario :
    list_to_tree [⟨1, none, 0⟩, ⟨2, some 1, 0⟩, ⟨3, some 2, 0⟩, ⟨4, none, 0⟩] =
      some (.consC 1 none 0
        (.consC 2 (some 1) 0 (.consN 3 (some 2) 0 .nil) .nil)
        (.consN 4 none 0 .nil)) := rfl

/-- Claim C6: when every record has a null `parent_id`, the output is the
input sequence in order, each record a top-level node with no `children`
key added. -/
theorem C6_roots_only (l : List Item) (h : ∀ r ∈ l, r.parent_id = none) :
    list_to_tree l = some (rootsForest l) := by
  have hfalsy : ∀ r ∈ l, falsyPid r.parent_id = true := by
    intro r hr
    rw [h r hr]
    rfl
  have h1 : l.filter (fun r => falsyPid r.parent_id) = l :=
    List.filter_eq_self.mpr hfalsy
  have h2 : l.filter (fun r => !falsyPid r.parent_id) = [] := by
    apply List.filter_eq_nil_iff.mpr
    intro r hr
    simp [hfalsy r hr]
  rw [list_to_tree, list_to_tree_run_eq l, h1, h2]
  simp [attach_loop_empty]

theorem C6_roots_only_witness :
    list_to_tree [⟨7, none, 1⟩, ⟨8, none, 2⟩] =
      some (rootsForest [⟨7, none, 1⟩, ⟨8, none, 2⟩]) := by
  apply C6_roots_only
  intro r hr
  rcases List.mem_cons.mp hr with h | h
  · subst h; rfl
  · rcases List.mem_cons.mp h with h' | h'
    · subst h'; rfl
    · cases h'

/-- Claim C9 counterexample: `list_to_tree` mutates its input list via
`list.remove`; on the single-root input the caller's list is empty when
the function returns, not unchanged. -/
theorem C9_counterexample :
    input_list_after [⟨1, none, 0⟩] = some [] ∧
      input_list_after [⟨1, none, 0⟩] ≠ some [⟨1, none, 0⟩] := by
  exact ⟨rfl, by decide⟩

/-- Claim C9 as amended: materialization computes a fresh nested structure
but consumes its input: whenever it terminates, every record has been
removed from the caller's list, which is left empty (the nodes themselves
are the input dicts, mutated by adding `children` keys). -/
theorem C9_amended_consumes_input (l : List Item) (t : Forest)
    (ht : list_to_tree l = some t) : input_list_after l = some [] :=
  (list_to_tree_some_spec ht).2.2.2.2.2

theorem C9_amended_witness : input_list_after [⟨3, none, 0⟩] = some [] :=
  C9_amended_consumes_input [⟨3, none, 0⟩] (rootsForest [⟨3, none, 0⟩]) rfl

/-- Claim C10: a record whose `parent_id` is 0 (falsy in Python, though
non-null) is classified as a root: it appears among the top-level records
of the output, and no `children` sequence anywhere in the forest contains
it (in particular it is never attached under a node of id 0). -/
theorem C10_zero_parent_is_root (l : List Item) (r : Item) (t : Forest)
    (hr : r ∈ l) (hp : r.parent_id = some 0) (ht : list_to_tree l = some t) :
    r ∈ t.topRecs ∧ ∀ e ∈ t.childEdges, e.2 ≠ r := by
  rcases list_to_tree_some_spec ht with ⟨_, htop, _, htru, _, _⟩
  constructor
  · rw [htop]
    refine List.mem_filter.mpr ⟨hr, ?_⟩
    rw [hp]
    decide
  · intro e he hcontra
    have hb := htru e he
    rw [hcontra, hp] at hb
    simp [falsyPid] at hb

theorem C10_zero_parent_witness :
    (⟨1, some 0, 0⟩ : Item) ∈ (Forest.consN 1 (some 0) 0 .nil).topRecs ∧
      ∀ e ∈ (Forest.consN 1 (some 0) 0 .nil).childEdges,
        e.2 ≠ (⟨1, some 0, 0⟩ : Item) :=
  C10_zero_parent_is_root [⟨1, some 0, 0⟩] _ _ (by simp) rfl rfl

theorem addToBuckets_labels (bs : List (Nat × List Entry)) (e : Entry) :
    (addToBuckets bs e).map Prod.fst = bs.map Prod.fst := by
  induction bs with
  | nil => rfl
  | cons b bs ih =>
    by_cases hb : b.1 = e.ym
    · simp [addToBuckets, hb] at ih ⊢
      simpa [addToBuckets] using ih
    · simp [addToBuckets, hb] at ih ⊢
      simpa [addToBuckets] using ih

theorem fillBuckets_labels :
    ∀ (es : List Entry) (bs : List (Nat × List Entry)),
      (fillBuckets bs es).map Prod.fst = bs.map Prod.fst := by
  intro es
  induction es with
  | nil => intro bs; rfl
  | cons e es ih =>
    intro bs
    have h1 : fillBuckets bs (e :: es) = fillBuckets (addToBuckets bs e) es := rfl
    rw [h1, ih, addToBuckets_labels]

theorem fillBuckets_sound :
    ∀ (es : List Entry) (bs : List (Nat × List Entry)),
      (∀ b ∈ bs, ∀ e ∈ b.2, e.ym = b.1) →
      ∀ b ∈ fillBuckets bs es, ∀ e ∈ b.2, e.ym = b.1 := by
  intro es
  induction es with
  | nil => intro bs h; exact h
  | cons e₀ es ih =>
    intro bs h
    apply ih
    intro b hb e he
    rcases List.mem_map.mp hb with ⟨b₀, hb₀, hmap⟩
    by_cases hb1 : b₀.1 = e₀.ym
    · rw [if_pos hb1] at hmap
      subst hmap
      rcases List.mem_append.mp he with h1 | h1
      · exact h b₀ hb₀ e h1
      · simp at h1
        subst h1
        exact hb1.symm
    · rw [if_neg hb1] at hmap
      subst hmap
      exact h b₀ hb₀ e he

theorem fillBuckets_mem_mono :
    ∀ (es : List Entry) (bs : List (Nat × List Entry)) (d : Nat) (e : Entry),
      (∃ b ∈ bs, b.1 = d ∧ e ∈ b.2) →
      ∃ b ∈ fillBuckets bs es, b.1 = d ∧ e ∈ b.2 := by
  intro es
  induction es with
  | nil => intro bs d e h; exact h
  | cons e₀ es ih =>
    intro bs d e h
    apply ih
    rcases h with ⟨b, hb, hbd, hbe⟩
    by_cases hb1 : b.1 = e₀.ym
    · refine ⟨(b.1, b.2 ++ [e₀]), ?_, hbd, List.mem_append.mpr (Or.inl hbe)⟩
      exact List.mem_map.mpr ⟨b, hb, by rw [if_pos hb1]⟩
    · refine ⟨b, ?_, hbd, hbe⟩
      exact List.mem_map.mpr ⟨b, hb, by rw [if_neg hb1]⟩

theorem fillBuckets_adds :
    ∀ (es : List Entry) (bs : List (Nat × List Entry)) (e : Entry),
      e ∈ es → e.ym ∈ bs.map Prod.fst →
      ∃ b ∈ fillBuckets bs es, b.1 = e.ym ∧ e ∈ b.2 := by
  intro es
  induction es with
  | nil => intro bs e h; cases h
  | cons e₀ es ih =>
    intro bs e hmem hlab
    rcases List.mem_cons.mp hmem with h1 | h1
    · subst h1
      rcases List.mem_map.mp hlab with ⟨b, hb, hbl⟩
      have hmem2 : (b.1, b.2 ++ [e]) ∈ addToBuckets bs e := by
        refine List.mem_map.mpr ⟨b, hb, ?_⟩
        simp [hbl]
      exact fillBuckets_mem_mono es (addToBuckets bs e) e.ym e
        ⟨(b.1, b.2 ++ [e]), hmem2, hbl, by simp⟩
    · have hlab' : e.ym ∈ (addToBuckets bs e₀).map Prod.fst := by
        rw [addToBuckets_labels]; exact hlab
      exact ih (addToBuckets bs e₀) e h1 hlab'

theorem mem_insertDesc {x d : Nat} :
    ∀ {l : List Nat}, x ∈ insertDesc d l ↔ x = d ∨ x ∈ l := by
  intro l
  induction l with
  | nil => simp [insertDesc]
  | cons a as ih =>
    by_cases ha : a ≤ d
    · simp [insertDesc, ha]
    · simp [insertDesc, ha, ih]
      tauto

theorem mem_sortDesc {x : Nat} : ∀ {l : List Nat}, x ∈ sortDesc l ↔ x ∈ l := by
  intro l
  induction l with
  | nil => simp [sortDesc]
  | cons a as ih =>
    have h1 : sortDesc (a :: as) = insertDesc a (sortDesc as) := rfl
    rw [h1, mem_insertDesc]
    simp [ih]

theorem insertDesc_strict (d : Nat) :
    ∀ {l : List Nat}, List.Pairwise (fun a b => b < a) l → d ∉ l →
      List.Pairwise (fun a b => b < a) (insertDesc d l) := by
  intro l
  induction l with
  | nil => intro _ _; simp [insertDesc]
  | cons x xs ih =>
    intro hl hd
    have hdx : d ≠ x := fun h => hd (h ▸ List.mem_cons_self x xs)
    have hdxs : d ∉ xs := fun h => hd (List.mem_cons_of_mem x h)
    rcases List.pairwise_cons.mp hl with ⟨hx, hxs⟩
    by_cases hle : x ≤ d
    · have hlt : x < d := Nat.lt_of_le_of_ne hle (fun h => hdx h.symm)
      rw [insertDesc, if_pos hle]
      refine List.pairwise_cons.mpr ⟨?_, hl⟩
      intro b hb
      rcases List.mem_cons.mp hb with h1 | h1
      · exact h1 ▸ hlt
      · exact Nat.lt_trans (hx b h1) hlt
    · rw [insertDesc, if_neg hle]
      refine List.pairwise_cons.mpr ⟨?_, ih hxs hdxs⟩
      intro b hb
      rcases mem_insertDesc.mp hb with h1 | h1
      · subst h1
        exact Nat.lt_of_not_le hle
      · exact hx b h1

theorem sortDesc_strict :
    ∀ {l : List Nat}, l.Nodup → List.Pairwise (fun a b => b < a) (sortDesc l) := by
  intro l
  induction l with
  | nil => intro _; simp [sortDesc]
  | cons x xs ih =>
    intro h
    rcases List.nodup_cons.mp h with ⟨hx, hxs⟩
    have h1 : sortDesc (x :: xs) = insertDesc x (sortDesc xs) := rfl
    rw [h1]
    exact insertDesc_strict x (ih hxs) (fun hm => hx (mem_sortDesc.mp hm))

theorem topEntries_ym (t : Forest) :
    t.topEntries.map Entry.ym = t.topRecs.map Item.ym := by
  induction t with
  | nil => rfl
  | consN i p y rest ih => simp [Forest.topEntries, Forest.topRecs, ih]
  | consC i p y cs rest ihc ihr => simp [Forest.topEntries, Forest.topRecs, ihr]

/-- Claim C8: the tree-hole listing groups each root node of the
materialized forest (carried with its attached subtree in the `children`
field of its entry) into the bucket labelled with its creation year-month;
the bucket labels are exactly the distinct months of the records, ordered
most recent first (strictly descending); every entry of a bucket carries
that bucket's month, and every root lands in the bucket of its month. -/
theorem C8_treehole_buckets (l : List Item) (t : Forest)
    (res : List (Nat × List Entry)) (ht : list_to_tree l = some t)
    (hres : list_treeholes_all l = some res) :
    res.map Prod.fst = monthsDesc l ∧
    List.Pairwise (fun a b => b < a) (res.map Prod.fst) ∧
    (∀ b ∈ res, ∀ e ∈ b.2, e.ym = b.1) ∧
    (∀ e ∈ t.topEntries, ∃ b ∈ res, b.1 = e.ym ∧ e ∈ b.2) := by
  have hres' : res =
      fillBuckets ((monthsDesc l).map (fun d => (d, ([] : List Entry)))) t.topEntries := by
    rw [list_treeholes_all, ht] at hres
    exact (Option.some.inj hres).symm
  have hlabels : res.map Prod.fst = monthsDesc l := by
    rw [hres', fillBuckets_labels, List.map_map]
    have hcomp : (Prod.fst ∘ fun d : Nat => (d, ([] : List Entry))) = fun d => d := rfl
    rw [hcomp]
    exact List.map_id' _
  refine ⟨hlabels, ?_, ?_, ?_⟩
  · rw [hlabels]
    exact sortDesc_strict (List.nodup_dedup _)
  · rw [hres']
    apply fillBuckets_sound
    intro b hb e he
    rcases List.mem_map.mp hb with ⟨d, _, hd⟩
    rw [← hd] at he
    cases he
  · intro e he
    rw [hres']
    apply fillBuckets_adds _ _ e he
    have hym : e.ym ∈ l.map Item.ym := by
      have h1 : e.ym ∈ t.topEntries.map Entry.ym := List.mem_map.mpr ⟨e, he, rfl⟩
      rw [topEntries_ym] at h1
      have h2 := (list_to_tree_some_spec ht).2.1
      rw [h2] at h1
      rcases List.mem_map.mp h1 with ⟨r, hr, hrym⟩
      exact List.mem_map.mpr ⟨r, (List.mem_filter.mp hr).1, hrym⟩
    have h3 : e.ym ∈ monthsDesc l :=
      mem_sortDesc.mpr (List.mem_dedup.mpr hym)
    simpa using h3

theorem C8_treehole_buckets_witness :
    (([((202106 : Nat), [(⟨2, none, 202106, none⟩ : Entry)]),
        (202105, [⟨1, none, 202105, none⟩])]).map Prod.fst =
      monthsDesc [⟨1, none, 202105⟩, ⟨2, none, 202106⟩]) ∧
    List.Pairwise (fun a b => b < a)
      (([((202106 : Nat), [(⟨2, none, 202106, none⟩ : Entry)]),
        (202105, [⟨1, none, 202105, none⟩])]).map Prod.fst) ∧
    (∀ b ∈ [((202106 : Nat), [(⟨2, none, 202106, none⟩ : Entry)]),
        (202105, [⟨1, none, 202105, none⟩])], ∀ e ∈ b.2, e.ym = b.1) ∧
    (∀ e ∈ (rootsForest [⟨1, none, 202105⟩, ⟨2, none, 202106⟩]).topEntries,
      ∃ b ∈ [((202106 : Nat), [(⟨2, none, 202106, none⟩ : Entry)]),
        (202105, [⟨1, none, 202105, none⟩])], b.1 = e.ym ∧ e ∈ b.2) :=
  C8_treehole_buckets [⟨1, none, 202105⟩, ⟨2, none, 202106⟩]
    (rootsForest [⟨1, none, 202105⟩, ⟨2, none, 202106⟩]) _ rfl rfl

theorem pushChild_eq (od : Option Forest) (r : Item) :
    pushChild od r = (optF od).app (.consN r.id r.parent_id r.ym .nil) := by
  cases od with
  | none => rfl
  | some d => exact Forest.appendNode_eq_app d r

theorem oappend_none_of_ne_nil {cs : Forest} (h : cs ≠ .nil) :
    oappend none cs = some cs := by
  cases cs with
  | nil => exact absurd rfl h
  | consN i p y rest => rfl
  | consC i p y c rest => rfl

theorem oappend_push (od : Option Forest) (r : Item) (g : Forest) :
    oappend (some (pushChild od r)) g =
      oappend od (.consN r.id r.parent_id r.ym g) := by
  cases g with
  | nil =>
    cases od with
    | none => rfl
    | some d => simp [oappend, pushChild, Forest.appendNode_eq_app]
  | consN a b c rest =>
    cases od with
    | none => simp [oappend, pushChild, Forest.app]
    | some d =>
      simp [oappend, pushChild, Forest.appendNode_eq_app, Forest.app_assoc]
      rfl
  | consC a b c cc rest =>
    cases od with
    | none => simp [oappend, pushChild, Forest.app]
    | some d =>
      simp [oappend, pushChild, Forest.appendNode_eq_app, Forest.app_assoc]
      rfl

theorem oappend_push_subtree (od : Option Forest) (c : Nat) (pc : Option Nat)
    (yc : Nat) (ccs : Forest) (g : Forest) :
    oappend (some ((optF od).app (.consC c pc yc ccs .nil))) g =
      oappend od (.consC c pc yc ccs g) := by
  cases g with
  | nil =>
    cases od with
    | none => simp [oappend, optF, Forest.nil_app]
    | some d => simp [oappend, optF]
  | consN a b y rest =>
    cases od with
    | none => simp [oappend, optF, Forest.nil_app, Forest.app]
    | some d =>
      simp [oappend, optF, Forest.app_assoc]
      rfl
  | consC a b y cc rest =>
    cases od with
    | none => simp [oappend, optF, Forest.nil_app, Forest.app]
    | some d =>
      simp [oappend, optF, Forest.app_assoc]
      rfl

theorem find_parent_insert_none_of_not_mem {t : Forest} {r : Item} {q : Nat}
    (hq : r.parent_id = some q) (h : q ∉ t.idsF) :
    find_parent_insert t r = none := by
  apply (find_parent_insert_none_iff r t).mpr
  intro q' hq'
  have : q = q' := by
    rw [hq] at hq'
    exact Option.some.inj hq'
  rw [← this]
  exact h

theorem find_parent_insert_app_some {r : Item} :
    ∀ {a : Forest} (b : Forest) {a' : Forest},
      find_parent_insert a r = some a' →
      find_parent_insert (a.app b) r = some (a'.app b) := by
  intro a
  induction a with
  | nil => intro b a' h; cases h
  | consN i p y rest ih =>
    intro b a' h
    by_cases hp : r.parent_id = some i
    · rw [find_parent_insert, if_pos hp] at h
      cases h
      rw [Forest.app, find_parent_insert, if_pos hp]
      rfl
    · rw [find_parent_insert, if_neg hp] at h
      cases heq : find_parent_insert rest r with
      | none => rw [heq] at h; cases h
      | some rest' =>
        rw [heq] at h
        cases h
        rw [Forest.app, find_parent_insert, if_neg hp, ih b heq]
        rfl
  | consC i p y cs rest ihc ihr =>
    intro b a' h
    by_cases hp : r.parent_id = some i
    · rw [find_parent_insert, if_pos hp] at h
      cases h
      rw [Forest.app, find_parent_insert, if_pos hp]
      rfl
    · rw [find_parent_insert, if_neg hp] at h
      cases heqc : find_parent_insert cs r with
      | some cs' =>
        rw [heqc] at h
        cases h
        rw [Forest.app, find_parent_insert, if_neg hp, heqc]
        rfl
      | none =>
        rw [heqc] at h
        cases heqr : find_parent_insert rest r with
        | none => rw [heqr] at h; cases h
        | some rest' =>
          rw [heqr] at h
          cases h
          rw [Forest.app, find_parent_insert, if_neg hp, heqc, ihr b heqr]
          rfl

theorem find_parent_insert_app_none {r : Item} :
    ∀ {a : Forest} (b : Forest), find_parent_insert a r = none →
      find_parent_insert (a.app b) r =
        Option.map (fun g => a.app g) (find_parent_insert b r) := by
  intro a
  induction a with
  | nil =>
    intro b _
    rw [Forest.nil_app]
    cases find_parent_insert b r <;> rfl
  | consN i p y rest ih =>
    intro b ha
    have hp : ¬r.parent_id = some i := by
      intro hp
      rw [find_parent_insert, if_pos hp] at ha
      cases ha
    have hrest : find_parent_insert rest r = none := by
      cases heq : find_parent_insert rest r with
      | none => rfl
      | some rest' =>
        rw [find_parent_insert, if_neg hp, heq] at ha
        cases ha
    rw [Forest.app, find_parent_insert, if_neg hp, ih b hrest]
    cases find_parent_insert b r <;> rfl
  | consC i p y cs rest ihc ihr =>
    intro b ha
    have hp : ¬r.parent_id = some i := by
      intro hp
      rw [find_parent_insert, if_pos hp] at ha
      cases ha
    have hcs : find_parent_insert cs r = none := by
      cases heq : find_parent_insert cs r with
      | none => rfl
      | some cs' =>
        rw [find_parent_insert, if_neg hp, heq] at ha
        cases ha
    have hrest : find_parent_insert rest r = none := by
      cases heq : find_parent_insert rest r with
      | none => rfl
      | some rest' =>
        rw [find_parent_insert, if_neg hp, hcs, heq] at ha
        cases ha
    rw [Forest.app, find_parent_insert, if_neg hp, hcs, ihr b hrest]
    cases find_parent_insert b r <;> rfl

theorem foldInsert_append :
    ∀ (q₁ q₂ : List Item) (t : Forest),
      foldInsert t (q₁ ++ q₂) =
        Option.bind (foldInsert t q₁) (fun t' => foldInsert t' q₂) := by
  intro q₁
  induction q₁ with
  | nil => intro q₂ t; rfl
  | cons r rs ih =>
    intro q₂ t
    cases heq : find_parent_insert t r with
    | none => simp [foldInsert, heq]
    | some t' => simp [foldInsert, heq, ih]

/-- A successful insertion inside the hole lifts through the context: the
DFS of `find_parent` walks every `before` part without a match, never
matches a frame node, enters its `children`, and stops inside the hole
(never reaching any `after` part). -/
theorem plug_lift {r : Item} {q : Nat} (hq : r.parent_id = some q) :
    ∀ (fs : List Frame) {d d' : Forest}, StackOk fs q →
      find_parent_insert d r = some d' →
      find_parent_insert (plug fs d) r = some (plug fs d') := by
  intro fs
  induction fs with
  | nil => intro d d' _ h; exact h
  | cons f fs ih =>
    intro d d' hok h
    have hokf := hok f (List.mem_cons_self f fs)
    have hoktail : StackOk fs q := fun g hg => hok g (List.mem_cons_of_mem f hg)
    have hb : find_parent_insert f.before r = none :=
      find_parent_insert_none_of_not_mem hq hokf.1
    have hp : ¬r.parent_id = some f.id := by
      intro hcon
      apply hokf.2
      rw [hq] at hcon
      exact Option.some.inj hcon
    have hnode : find_parent_insert (Forest.consC f.id f.parent_id f.ym d f.after) r =
        some (.consC f.id f.parent_id f.ym d' f.after) := by
      rw [find_parent_insert, if_neg hp, h]
    have hstep : find_parent_insert
        (f.before.app (.consC f.id f.parent_id f.ym d f.after)) r =
        some (f.before.app (.consC f.id f.parent_id f.ym d' f.after)) := by
      rw [find_parent_insert_app_none _ hb, hnode]
      rfl
    exact ih hoktail hstep

/-- Appending a direct child of the node being rebuilt: the DFS reaches the
node (whose id matches) before ever entering its children, and appends. -/
theorem plug_append (r : Item) (fs : List Frame) (bef : Forest) (i : Nat)
    (p : Option Nat) (y : Nat) (od : Option Forest) (aft : Forest)
    (hp : r.parent_id = some i) (hok : StackOk fs i) (hbef : i ∉ bef.idsF) :
    find_parent_insert (stateO fs bef i p y od aft) r =
      some (stateO fs bef i p y (some (pushChild od r)) aft) := by
  have hb : find_parent_insert bef r = none :=
    find_parent_insert_none_of_not_mem hp hbef
  have hnode : find_parent_insert (nodeState i p y od aft) r =
      some (nodeState i p y (some (pushChild od r)) aft) := by
    cases od with
    | none => simp [nodeState, pushChild, find_parent_insert, hp]
    | some d => simp [nodeState, pushChild, find_parent_insert, hp]
  have hstep : find_parent_insert (bef.app (nodeState i p y od aft)) r =
      some (bef.app (nodeState i p y (some (pushChild od r)) aft)) := by
    rw [find_parent_insert_app_none _ hb, hnode]
    rfl
  exact plug_lift hp fs hok hstep

theorem oappend_push1 (od : Option Forest) (c : Nat) (pc : Option Nat) (yc : Nat)
    (g : Forest) :
    oappend (some (pushChild od ⟨c, pc, yc⟩)) g = oappend od (.consN c pc yc g) :=
  oappend_push od ⟨c, pc, yc⟩ g

/-- Rebuilding a sibling sequence: processing the preorder flattening of
`todo` attaches every node of `todo` exactly where it came from, growing
the `children` value of the context node `i` from `od` to `oappend od todo`.
All ids involved must be fresh for the context (`StackOk`, not in `bef`)
and mutually distinct, every top record of `todo` must designate `i`, and
`todo` must be locally well-formed with nonempty `children` keys. -/
theorem rebuild_siblings :
    ∀ (todo : Forest) (fs : List Frame) (bef : Forest) (i : Nat) (p : Option Nat)
      (y : Nat) (od : Option Forest) (aft : Forest),
      (∀ c ∈ todo.topRecs, c.parent_id = some i) →
      WFF todo →
      NonemptyCh todo →
      (∀ q ∈ i :: (idsO od ++ todo.idsF), StackOk fs q ∧ q ∉ bef.idsF) →
      (i :: (idsO od ++ todo.idsF)).Nodup →
      foldInsert (stateO fs bef i p y od aft) todo.flattenRecs =
        some (stateO fs bef i p y (oappend od todo) aft) := by
  intro todo
  induction todo with
  | nil =>
    intro fs bef i p y od aft _ _ _ _ _
    simp [Forest.flattenRecs, foldInsert, oappend]
  | consN c pc yc todo' ih =>
    intro fs bef i p y od aft htops hwf hne hq hnd
    have hpc : pc = some i := htops ⟨c, pc, yc⟩ (List.mem_cons_self _ _)
    have hqi := hq i (List.mem_cons_self _ _)
    have hstep := plug_append ⟨c, pc, yc⟩ fs bef i p y od aft hpc hqi.1 hqi.2
    have hids1 : idsO (some (pushChild od ⟨c, pc, yc⟩)) = idsO od ++ [c] := by
      simp [idsO, optF, pushChild_eq, Forest.idsF_app, Forest.idsF]
    have hLeq : i :: (idsO (some (pushChild od ⟨c, pc, yc⟩)) ++ todo'.idsF) =
        i :: (idsO od ++ (Forest.consN c pc yc todo').idsF) := by
      rw [hids1]
      simp [Forest.idsF]
    have hq' : ∀ q ∈ i :: (idsO (some (pushChild od ⟨c, pc, yc⟩)) ++ todo'.idsF),
        StackOk fs q ∧ q ∉ bef.idsF := by
      intro q hqm
      rw [hLeq] at hqm
      exact hq q hqm
    have hnd' : (i :: (idsO (some (pushChild od ⟨c, pc, yc⟩)) ++ todo'.idsF)).Nodup := by
      rw [hLeq]
      exact hnd
    have hih := ih fs bef i p y (some (pushChild od ⟨c, pc, yc⟩)) aft
      (fun x hx => htops x (List.mem_cons_of_mem _ hx)) hwf hne hq' hnd'
    have hflat : (Forest.consN c pc yc todo').flattenRecs =
        (⟨c, pc, yc⟩ : Item) :: todo'.flattenRecs := rfl
    rw [hflat]
    have hfold : foldInsert (stateO fs bef i p y od aft)
        ((⟨c, pc, yc⟩ : Item) :: todo'.flattenRecs) =
        foldInsert (stateO fs bef i p y (some (pushChild od ⟨c, pc, yc⟩)) aft)
          todo'.flattenRecs := by
      rw [foldInsert, hstep]
    rw [hfold, hih, oappend_push1]
  | consC c pc yc ccs todo' ihc ihr =>
    intro fs bef i p y od aft htops hwf hne hq hnd
    rcases hwf with ⟨hwf1, hwf2, hwf3⟩
    rcases hne with ⟨hne1, hne2, hne3⟩
    have hpc : pc = some i := htops ⟨c, pc, yc⟩ (List.mem_cons_self _ _)
    have hqi := hq i (List.mem_cons_self _ _)
    have hstep := plug_append ⟨c, pc, yc⟩ fs bef i p y od aft hpc hqi.1 hqi.2
    -- facts about the ids of the subtree of c
    have hidstodo : (Forest.consC c pc yc ccs todo').idsF =
        c :: (ccs.idsF ++ todo'.idsF) := rfl
    have hndtail : (idsO od ++ (c :: (ccs.idsF ++ todo'.idsF))).Nodup := by
      have := List.nodup_cons.mp hnd
      rw [hidstodo] at this
      exact this.2
    have hinotin : i ∉ idsO od ++ (c :: (ccs.idsF ++ todo'.idsF)) := by
      have := List.nodup_cons.mp hnd
      rw [hidstodo] at this
      exact this.1
    have hdisj := (List.nodup_append.mp hndtail).2.2
    have hsub_mem : ∀ q ∈ c :: ccs.idsF,
        q ∈ i :: (idsO od ++ (Forest.consC c pc yc ccs todo').idsF) := by
      intro q hqm
      rw [hidstodo]
      apply List.mem_cons_of_mem
      apply List.mem_append.mpr
      refine Or.inr ?_
      rcases List.mem_cons.mp hqm with h1 | h1
      · exact h1 ▸ List.mem_cons_self _ _
      · exact List.mem_cons_of_mem _ (List.mem_append.mpr (Or.inl h1))
    have hsubfacts : ∀ q ∈ c :: ccs.idsF,
        StackOk fs q ∧ q ∉ bef.idsF ∧ q ≠ i ∧ q ∉ idsO od := by
      intro q hqm
      have h1 := hq q (hsub_mem q hqm)
      refine ⟨h1.1, h1.2, ?_, ?_⟩
      · intro hqeq
        apply hinotin
        rw [← hqeq]
        apply List.mem_append.mpr
        refine Or.inr ?_
        rcases List.mem_cons.mp hqm with h2 | h2
        · exact h2 ▸ List.mem_cons_self _ _
        · exact List.mem_cons_of_mem _ (List.mem_append.mpr (Or.inl h2))
      · intro hqod
        apply hdisj hqod
        rcases List.mem_cons.mp hqm with h2 | h2
        · exact h2 ▸ List.mem_cons_self _ _
        · exact List.mem_cons_of_mem _ (List.mem_append.mpr (Or.inl h2))
    -- conditions for the deeper level
    have hq₂ : ∀ q ∈ c :: (idsO none ++ ccs.idsF),
        StackOk (⟨i, p, y, bef, aft⟩ :: fs) q ∧ q ∉ (optF od).idsF := by
      intro q hqm
      have hqm' : q ∈ c :: ccs.idsF := by simpa [idsO, optF, Forest.idsF] using hqm
      rcases hsubfacts q hqm' with ⟨hs1, hs2, hs3, hs4⟩
      constructor
      · intro g hg
        rcases List.mem_cons.mp hg with h1 | h1
        · subst h1
          exact ⟨hs2, hs3⟩
        · exact hs1 g h1
      · exact hs4
    have hnd₂ : (c :: (idsO none ++ ccs.idsF)).Nodup := by
      have hsubl : List.Sublist (c :: ccs.idsF)
          (i :: (idsO od ++ (Forest.consC c pc yc ccs todo').idsF)) := by
        rw [hidstodo]
        refine List.Sublist.cons i ?_
        refine List.Sublist.trans ?_ (List.sublist_append_right (idsO od) _)
        exact (List.sublist_append_left ccs.idsF todo'.idsF).cons₂ c
      have := hnd.sublist hsubl
      simpa [idsO, optF, Forest.idsF] using this
    have hih2 := ihc (⟨i, p, y, bef, aft⟩ :: fs) (optF od) c pc yc none Forest.nil
      hwf1 hwf2 hne2 hq₂ hnd₂
    rw [oappend_none_of_ne_nil hne1] at hih2
    -- state equalities
    have hE1 : stateO (⟨i, p, y, bef, aft⟩ :: fs) (optF od) c pc yc none Forest.nil =
        stateO fs bef i p y (some (pushChild od ⟨c, pc, yc⟩)) aft := by
      simp [stateO, plug, nodeState, pushChild_eq]
    have hE2 : stateO (⟨i, p, y, bef, aft⟩ :: fs) (optF od) c pc yc (some ccs)
          Forest.nil =
        stateO fs bef i p y (some ((optF od).app (.consC c pc yc ccs .nil))) aft := by
      simp [stateO, plug, nodeState]
    -- conditions for the continuation at this level
    have hLeq : i :: (idsO (some ((optF od).app (.consC c pc yc ccs .nil))) ++
        todo'.idsF) = i :: (idsO od ++ (Forest.consC c pc yc ccs todo').idsF) := by
      simp [idsO, optF, Forest.idsF_app, Forest.idsF, List.append_assoc]
    have hq₃ : ∀ q ∈ i :: (idsO (some ((optF od).app (.consC c pc yc ccs .nil))) ++
        todo'.idsF), StackOk fs q ∧ q ∉ bef.idsF := by
      intro q hqm
      rw [hLeq] at hqm
      exact hq q hqm
    have hnd₃ : (i :: (idsO (some ((optF od).app (.consC c pc yc ccs .nil))) ++
        todo'.idsF)).Nodup := by
      rw [hLeq]
      exact hnd
    have hih3 := ihr fs bef i p y (some ((optF od).app (.consC c pc yc ccs .nil))) aft
      (fun x hx => htops x (List.mem_cons_of_mem _ hx)) hwf3 hne3 hq₃ hnd₃
    -- assemble
    have hflat : (Forest.consC c pc yc ccs todo').flattenRecs =
        (⟨c, pc, yc⟩ : Item) :: (ccs.flattenRecs ++ todo'.flattenRecs) := rfl
    rw [hflat]
    have hfold : foldInsert (stateO fs bef i p y od aft)
        ((⟨c, pc, yc⟩ : Item) :: (ccs.flattenRecs ++ todo'.flattenRecs)) =
        foldInsert (stateO fs bef i p y (some (pushChild od ⟨c, pc, yc⟩)) aft)
          (ccs.flattenRecs ++ todo'.flattenRecs) := by
      rw [foldInsert, hstep]
    rw [hfold, foldInsert_append, ← hE1, hih2, hE2]
    have hbind : Option.bind
        (some (stateO fs bef i p y (some ((optF od).app (.consC c pc yc ccs .nil)))
          aft)) (fun t' => foldInsert t' todo'.flattenRecs) =
        foldInsert (stateO fs bef i p y
          (some ((optF od).app (.consC c pc yc ccs .nil))) aft)
          todo'.flattenRecs := rfl
    rw [hbind, hih3, oappend_push_subtree]

/-- Rebuilding a whole forest from its stripped top level by processing
the preorder list of its strict descendants, to the right of an
already-finished prefix `done`. -/
theorem rebuild_forest :
    ∀ (todo done : Forest),
      WFF todo → NonemptyCh todo →
      (done.idsF ++ todo.idsF).Nodup →
      foldInsert (done.app todo.stripT) todo.descRecs = some (done.app todo) := by
  intro todo
  induction todo with
  | nil =>
    intro done _ _ _
    simp [Forest.stripT, Forest.descRecs, foldInsert]
  | consN i p y rest ih =>
    intro done hwf hne hnd
    have happ : done.app (Forest.consN i p y rest.stripT) =
        (done.app (.consN i p y .nil)).app rest.stripT := by
      rw [Forest.app_assoc]
      rfl
    have hnd' : ((done.app (.consN i p y .nil)).idsF ++ rest.idsF).Nodup := by
      rw [Forest.idsF_app]
      have heq : (done.idsF ++ (Forest.consN i p y Forest.nil).idsF) ++ rest.idsF =
          done.idsF ++ (Forest.consN i p y rest).idsF := by
        simp [Forest.idsF]
      rw [heq]
      exact hnd
    have hih := ih (done.app (.consN i p y .nil)) hwf hne hnd'
    have h1 : (Forest.consN i p y rest).stripT = .consN i p y rest.stripT := rfl
    have h2 : (Forest.consN i p y rest).descRecs = rest.descRecs := rfl
    rw [h1, h2, happ, hih, Forest.app_assoc]
    rfl
  | consC i p y cs rest ihc ihr =>
    intro done hwf hne hnd
    rcases hwf with ⟨hwf1, hwf2, hwf3⟩
    rcases hne with ⟨hne1, hne2, hne3⟩
    have hidsF : (Forest.consC i p y cs rest).idsF = i :: (cs.idsF ++ rest.idsF) := rfl
    have hq : ∀ q ∈ i :: (idsO none ++ cs.idsF), StackOk [] q ∧ q ∉ done.idsF := by
      intro q hqm
      have hqm' : q ∈ i :: cs.idsF := by simpa [idsO, optF, Forest.idsF] using hqm
      constructor
      · intro g hg
        cases hg
      · have hdisj := (List.nodup_append.mp hnd).2.2
        intro hqdone
        apply hdisj hqdone
        rw [hidsF]
        rcases List.mem_cons.mp hqm' with h1 | h1
        · exact h1 ▸ List.mem_cons_self _ _
        · exact List.mem_cons_of_mem _ (List.mem_append.mpr (Or.inl h1))
    have hnd₂ : (i :: (idsO none ++ cs.idsF)).Nodup := by
      have hsubl : List.Sublist (i :: cs.idsF)
          (done.idsF ++ (Forest.consC i p y cs rest).idsF) := by
        rw [hidsF]
        refine List.Sublist.trans ?_ (List.sublist_append_right done.idsF _)
        exact (List.sublist_append_left cs.idsF rest.idsF).cons₂ i
      have := hnd.sublist hsubl
      simpa [idsO, optF, Forest.idsF] using this
    have hA := rebuild_siblings cs [] done i p y none rest.stripT hwf1 hwf2 hne2 hq hnd₂
    rw [oappend_none_of_ne_nil hne1] at hA
    have hS0 : stateO [] done i p y none rest.stripT =
        done.app (Forest.consC i p y cs rest).stripT := by
      simp [stateO, plug, nodeState, Forest.stripT]
    have hS1 : stateO [] done i p y (some cs) rest.stripT =
        (done.app (.consC i p y cs .nil)).app rest.stripT := by
      rw [stateO, plug, nodeState, Forest.app_assoc]
      rfl
    have hnd₃ : ((done.app (.consC i p y cs .nil)).idsF ++ rest.idsF).Nodup := by
      rw [Forest.idsF_app]
      have heq : (done.idsF ++ (Forest.consC i p y cs Forest.nil).idsF) ++ rest.idsF =
          done.idsF ++ (Forest.consC i p y cs rest).idsF := by
        simp [Forest.idsF, List.append_assoc]
      rw [heq]
      exact hnd
    have hB := ihr (done.app (.consC i p y cs .nil)) hwf3 hne3 hnd₃
    have hdesc : (Forest.consC i p y cs rest).descRecs =
        cs.flattenRecs ++ rest.descRecs := rfl
    rw [hdesc, foldInsert_append, ← hS0, hA]
    have hbind : Option.bind (some (stateO [] done i p y (some cs) rest.stripT))
        (fun t' => foldInsert t' rest.descRecs) =
        foldInsert (stateO [] done i p y (some cs) rest.stripT) rest.descRecs := rfl
    rw [hbind, hS1, hB, Forest.app_assoc]
    rfl

theorem EdgesOk_WFF : ∀ {t : Forest}, EdgesOk t → WFF t := by
  intro t
  induction t with
  | nil => intro _; trivial
  | consN i p y rest ih =>
    intro h
    exact ih (fun e he => h e he)
  | consC i p y cs rest ihc ihr =>
    intro h
    refine ⟨?_, ihc ?_, ihr ?_⟩
    · intro x hx
      exact h (i, x) (by
        simp only [Forest.childEdges]
        exact List.mem_append.mpr (Or.inl (List.mem_map.mpr ⟨x, hx, rfl⟩)))
    · intro e he
      exact h e (by
        simp only [Forest.childEdges]
        exact List.mem_append.mpr (Or.inr (List.mem_append.mpr (Or.inl he))))
    · intro e he
      exact h e (by
        simp only [Forest.childEdges]
        exact List.mem_append.mpr (Or.inr (List.mem_append.mpr (Or.inr he))))

theorem descRecs_child :
    ∀ (t : Forest) (r : Item), r ∈ t.descRecs → ∃ q, (q, r) ∈ t.childEdges := by
  intro t
  induction t with
  | nil => intro r h; cases h
  | consN i p y rest ih =>
    intro r h
    rcases ih r h with ⟨q, hq⟩
    exact ⟨q, hq⟩
  | consC i p y cs rest ihc ihr =>
    intro r h
    rcases List.mem_append.mp h with h1 | h1
    · rcases mem_flattenRecs_cases cs r h1 with h2 | ⟨q, h2⟩
      · refine ⟨i, ?_⟩
        simp only [Forest.childEdges]
        exact List.mem_append.mpr (Or.inl (List.mem_map.mpr ⟨r, h2, rfl⟩))
      · refine ⟨q, ?_⟩
        simp only [Forest.childEdges]
        exact List.mem_append.mpr (Or.inr (List.mem_append.mpr (Or.inl h2)))
    · rcases ihr r h1 with ⟨q, h2⟩
      refine ⟨q, ?_⟩
      simp only [Forest.childEdges]
      exact List.mem_append.mpr (Or.inr (List.mem_append.mpr (Or.inr h2)))

/-- With falsy tops and truthy descendants, the partition-pass filters
recover exactly the top records and the descendant records of a forest
from its preorder flattening. -/
theorem flatten_filter :
    ∀ (t : Forest),
      (∀ r ∈ t.topRecs, falsyPid r.parent_id = true) →
      (∀ r ∈ t.descRecs, falsyPid r.parent_id = false) →
      t.flattenRecs.filter (fun r => falsyPid r.parent_id) = t.topRecs ∧
      t.flattenRecs.filter (fun r => !falsyPid r.parent_id) = t.descRecs := by
  intro t
  induction t with
  | nil => intro _ _; exact ⟨rfl, rfl⟩
  | consN i p y rest ih =>
    intro ht hd
    have hhead : falsyPid (⟨i, p, y⟩ : Item).parent_id = true :=
      ht ⟨i, p, y⟩ (List.mem_cons_self _ _)
    have ihh := ih (fun r hr => ht r (List.mem_cons_of_mem _ hr)) hd
    constructor
    · simp [Forest.flattenRecs, Forest.topRecs, List.filter_cons, hhead, ihh.1]
    · simp [Forest.flattenRecs, Forest.descRecs, List.filter_cons, hhead, ihh.2]
  | consC i p y cs rest ihc ihr =>
    intro ht hd
    have hhead : falsyPid (⟨i, p, y⟩ : Item).parent_id = true :=
      ht ⟨i, p, y⟩ (List.mem_cons_self _ _)
    have hcs_all : ∀ r ∈ cs.flattenRecs, falsyPid r.parent_id = false := by
      intro r hr
      exact hd r (List.mem_append.mpr (Or.inl hr))
    have hrest := ihr (fun r hr => ht r (List.mem_cons_of_mem _ hr))
      (fun r hr => hd r (List.mem_append.mpr (Or.inr hr)))
    have hfil1 : cs.flattenRecs.filter (fun r => falsyPid r.parent_id) = [] :=
      List.filter_eq_nil_iff.mpr (fun r hr => by simp [hcs_all r hr])
    have hfil2 : cs.flattenRecs.filter (fun r => !falsyPid r.parent_id) =
        cs.flattenRecs :=
      List.filter_eq_self.mpr (fun r hr => by simp [hcs_all r hr])
    constructor
    · simp [Forest.flattenRecs, Forest.topRecs, List.filter_cons, List.filter_append,
        hhead, hfil1, hrest.1]
    · simp [Forest.flattenRecs, Forest.descRecs, List.filter_cons, List.filter_append,
        hhead, hfil2, hrest.2]

theorem flattenRecs_eq_nil : ∀ {t : Forest}, t.flattenRecs = [] → t = .nil := by
  intro t
  cases t with
  | nil => intro _; rfl
  | consN i p y rest => intro h; simp [Forest.flattenRecs] at h
  | consC i p y cs rest => intro h; simp [Forest.flattenRecs] at h

theorem stripT_eq_self_of_no_desc :
    ∀ (t : Forest), NonemptyCh t → t.descRecs = [] → t.stripT = t := by
  intro t
  induction t with
  | nil => intro _ _; rfl
  | consN i p y rest ih =>
    intro hne hd
    show Forest.consN i p y rest.stripT = Forest.consN i p y rest
    rw [ih hne hd]
  | consC i p y cs rest ihc ihr =>
    intro hne hd
    exfalso
    have h1 : cs.flattenRecs = [] := (List.append_eq_nil.mp hd).1
    exact hne.1 (flattenRecs_eq_nil h1)

theorem rootsForest_topRecs : ∀ (t : Forest), rootsForest t.topRecs = t.stripT := by
  intro t
  induction t with
  | nil => rfl
  | consN i p y rest ih =>
    show rootsForest ((⟨i, p, y⟩ : Item) :: rest.topRecs) = .consN i p y rest.stripT
    rw [rootsForest, ih]
  | consC i p y cs rest ihc ihr =>
    show rootsForest ((⟨i, p, y⟩ : Item) :: rest.topRecs) = .consN i p y rest.stripT
    rw [rootsForest, ihr]

/-- When every record of the snapshot attaches, a single pass of the while
loop performs exactly the fold of insertions and empties the list. -/
theorem foldInsert_attach_pass :
    ∀ (s : List Item) (t t' : Forest),
      foldInsert t s = some t' → attach_pass s t s = (t', []) := by
  intro s
  induction s with
  | nil =>
    intro t t' h
    cases h
    rfl
  | cons r rs ih =>
    intro t t' h
    cases heq : find_parent_insert t r with
    | none =>
      simp only [foldInsert, heq] at h
      cases h
    | some t₁ =>
      simp only [foldInsert, heq] at h
      have h2 := ih t₁ t' h
      simp only [attach_pass, heq, removeFirst_cons_self]
      exact h2

/-- Claim C7 as amended: for every acyclic, fully-resolvable input with
pairwise-distinct ids, materialization round-trips: flattening the
resulting forest back to a flat list (preorder) and running `list_to_tree`
again returns exactly the same forest. -/
theorem C7_amended_roundtrip (l : List Item) (depth : Nat → Nat)
    (hres : Resolvable l) (hdep : AcyclicDepth l depth)
    (hnd : (l.map Item.id).Nodup) :
    ∃ t, list_to_tree l = some t ∧ list_to_tree t.flattenRecs = some t := by
  rcases list_to_tree_total l depth hres hdep with ⟨t, ht⟩
  refine ⟨t, ht, ?_⟩
  rcases list_to_tree_some_spec ht with ⟨hperm, htop, hok, htru, hnech, _⟩
  have hndt : t.idsF.Nodup := hperm.nodup_iff.mpr hnd
  have htops : ∀ r ∈ t.topRecs, falsyPid r.parent_id = true := by
    intro r hr
    rw [htop] at hr
    exact (List.mem_filter.mp hr).2
  have hdescf : ∀ r ∈ t.descRecs, falsyPid r.parent_id = false := by
    intro r hr
    rcases descRecs_child t r hr with ⟨q, hq⟩
    exact htru (q, r) hq
  rcases flatten_filter t htops hdescf with ⟨hf1, hf2⟩
  have hwf : WFF t := EdgesOk_WFF hok
  have hfold : foldInsert t.stripT t.descRecs = some t := by
    have h := rebuild_forest t Forest.nil hwf hnech
      (by simpa [Forest.idsF] using hndt)
    simpa [Forest.nil_app] using h
  rw [list_to_tree, list_to_tree_run_eq t.flattenRecs, hf1, hf2, rootsForest_topRecs]
  by_cases hd0 : t.descRecs = []
  · rw [hd0]
    rw [stripT_eq_self_of_no_desc t hnech hd0]
    simp [attach_loop_empty]
  · have hpass := foldInsert_attach_pass t.descRecs t.stripT t hfold
    cases hlen : t.descRecs.length with
    | zero => exact absurd (List.eq_nil_of_length_eq_zero hlen) hd0
    | succ n =>
      rw [attach_loop_step hd0, hpass]
      simp [attach_loop_empty]

/-- Claim C7 counterexample: with duplicate ids the round-trip is not even
equivalent, although the input satisfies the claim's hypotheses
(fully resolvable, acyclic via the rank 5↦0, q↦q otherwise).  First run:
record {id:2, parent_id:1} attaches under the top-level root of id 1.
After flattening (preorder) and re-running, the DFS of `find_parent` now
meets the nested node of id 1 (child of 5) first, so 2 attaches there
instead: in the first forest the top-level node 1 has direct child 2, in
the second it has no children at all (`topFamilies` differ), and the
forests are unequal. -/
theorem C7_counterexample :
    Resolvable [⟨5, none, 0⟩, ⟨1, none, 0⟩, ⟨2, some 1, 0⟩, ⟨1, some 5, 0⟩] ∧
    AcyclicDepth [⟨5, none, 0⟩, ⟨1, none, 0⟩, ⟨2, some 1, 0⟩, ⟨1, some 5, 0⟩]
      (fun q => if q = 5 then 0 else q) ∧
    list_to_tree [⟨5, none, 0⟩, ⟨1, none, 0⟩, ⟨2, some 1, 0⟩, ⟨1, some 5, 0⟩] =
      some (.consC 5 none 0 (.consN 1 (some 5) 0 .nil)
        (.consC 1 none 0 (.consN 2 (some 1) 0 .nil) .nil)) ∧
    list_to_tree (Forest.consC 5 none 0 (.consN 1 (some 5) 0 .nil)
        (.consC 1 none 0 (.consN 2 (some 1) 0 .nil) .nil)).flattenRecs =
      some (.consC 5 none 0
        (.consC 1 (some 5) 0 (.consN 2 (some 1) 0 .nil) .nil)
        (.consN 1 none 0 .nil)) ∧
    (Forest.consC 5 none 0
        (.consC 1 (some 5) 0 (.consN 2 (some 1) 0 .nil) .nil)
        (.consN 1 none 0 .nil)) ≠
      (.consC 5 none 0 (.consN 1 (some 5) 0 .nil)
        (.consC 1 none 0 (.consN 2 (some 1) 0 .nil) .nil)) ∧
    (Forest.consC 5 none 0 (.consN 1 (some 5) 0 .nil)
        (.consC 1 none 0 (.consN 2 (some 1) 0 .nil) .nil)).topFamilies =
      [(5, [1]), (1, [2])] ∧
    (Forest.consC 5 none 0
        (.consC 1 (some 5) 0 (.consN 2 (some 1) 0 .nil) .nil)
        (.consN 1 none 0 .nil)).topFamilies = [(5, [1, 2]), (1, [])] := by
  refine ⟨?_, ?_, rfl, rfl, by decide, rfl, rfl⟩
  · intro r hr p hp
    rcases List.mem_cons.mp hr with h | h
    · subst h; cases hp
    · rcases List.mem_cons.mp h with h' | h'
      · subst h'; cases hp
      · rcases List.mem_cons.mp h' with h'' | h''
        · subst h''
          injection hp with h2
          subst h2
          exact ⟨⟨1, none, 0⟩, by simp, rfl⟩
        · rcases List.mem_cons.mp h'' with h3 | h3
          · subst h3
            injection hp with h2
            subst h2
            exact ⟨⟨5, none, 0⟩, by simp, rfl⟩
          · cases h3
  · intro r hr p hp
    rcases List.mem_cons.mp hr with h | h
    · subst h; cases hp
    · rcases List.mem_cons.mp h with h' | h'
      · subst h'; cases hp
      · rcases List.mem_cons.mp h' with h'' | h''
        · subst h''
          injection hp with h2
          subst h2
          decide
        · rcases List.mem_cons.mp h'' with h3 | h3
          · subst h3
            injection hp with h2
            subst h2
            decide
          · cases h3

theorem C7_amended_roundtrip_witness :
    ∃ t, list_to_tree [⟨1, none, 0⟩, ⟨2, some 1, 0⟩] = some t ∧
      list_to_tree t.flattenRecs = some t := by
  apply C7_amended_roundtrip [⟨1, none, 0⟩, ⟨2, some 1, 0⟩] (fun n => n)
  · intro r hr p hp
    rcases List.mem_cons.mp hr with h | h
    · subst h; cases hp
    · rcases List.mem_cons.mp h with h' | h'
      · subst h'
        injection hp with h2
        subst h2
        exact ⟨⟨1, none, 0⟩, by simp, rfl⟩
      · cases h'
  · intro r hr p hp
    rcases List.mem_cons.mp hr with h | h
    · subst h; cases hp
    · rcases List.mem_cons.mp h with h' | h'
      · subst h'
        injection hp with h2
        subst h2
        decide
      · cases h'
  · decide
